import Mathlib

/-
Verification of the friend-of-friend (FoF) connected-component engine in
kdcount/kd_fof.c.

The C file implements union-find over per-point parent pointers (`head`),
with a splay-style path compression (`splay`), an internal-connectivity
prepass over the kd-tree (`connect`), per-edge union callbacks
(`_kd_fof_visit_edge`, `_kd_fof_visit_edge_first`), a finalization pass
flattening every entry to its root, and diagnostics counters
(`kd_fof_get_last_traverse_info`).

Embedding choices:
- point coordinates live in an arbitrary linearly ordered commutative ring
  (the C code uses `double`; every claim is about order/arithmetic facts
  that hold in any such ring, and witnesses instantiate at ℤ);
- the parent array `head` is a function ℕ → ℕ; entries at or above the
  point count are fixed at the identity, mirroring that the C array has
  exactly `node->size` entries;
- the C while-loops of `splay` walk a path whose length is bounded by the
  point count whenever parent pointers are acyclic, so they are embedded
  with an explicit fuel argument which the top-level run instantiates with
  the point count;
- the compile-time KD_FOF_UNSAFE toggle is a boolean parameter `fc`
  (`fc = true` is the default build: full path compression);
- the kd-tree node layout (`kdtree.h`) and the dual-tree enumeration
  engine (`kd_enum*`) are not part of this source file; they are modelled
  from the specification where needed (see the doc comments marked
  "Modelled from the spec").
-/

namespace KDFof

/-- Point in 3-d space; coordinates in a linearly ordered commutative ring. -/
structure Pt (α : Type) where
  x : α
  y : α
  z : α
deriving DecidableEq

/-- Squared Euclidean distance between two points (the code only ever
compares squared distances against the squared linking length). -/
def dist2 {α : Type} [LinearOrderedCommRing α] (p q : Pt α) : α :=
  (p.x - q.x) * (p.x - q.x) + (p.y - q.y) * (p.y - q.y) + (p.z - q.z) * (p.z - q.z)

/-- Axis-aligned bounding box, min and max corner per dimension. -/
structure Box (α : Type) where
  minx : α
  miny : α
  minz : α
  maxx : α
  maxy : α
  maxz : α
deriving DecidableEq

/-- Membership of a point in a bounding box. -/
def inBox {α : Type} [LinearOrderedCommRing α] (b : Box α) (p : Pt α) : Prop :=
  b.minx ≤ p.x ∧ p.x ≤ b.maxx ∧ b.miny ≤ p.y ∧ p.y ≤ b.maxy ∧ b.minz ≤ p.z ∧ p.z ≤ b.maxz

instance {α : Type} [LinearOrderedCommRing α] (b : Box α) (p : Pt α) :
    Decidable (inBox b p) := by
  unfold inBox
  infer_instance

/-- Squared diagonal of a node's bounding box, translated from
`kd_node_maxdist2` in kd_fof.c (sum over the 3 dimensions of
`(max[d] - min[d])^2`). -/
def kd_node_maxdist2 {α : Type} [LinearOrderedCommRing α] (b : Box α) : α :=
  (b.maxx - b.minx) * (b.maxx - b.minx) + (b.maxy - b.miny) * (b.maxy - b.miny) +
    (b.maxz - b.minz) * (b.maxz - b.minz)

/-- Modelled from the spec: the kd-tree node layout of `kdtree.h` is not in
this source file.  Per spec section 6, a node exposes an index range
`[start, start+size)` into the points permutation array, min/max corner
coordinates, an optional pair of children, and a split-dimension marker
distinguishing internal nodes from leaves.  `leaf` is a node with
`dim = -1` in the C code, `split` a node with two children. -/
inductive KDNode (α : Type) where
  | leaf (start size : ℕ) (box : Box α)
  | split (start size : ℕ) (box : Box α) (l r : KDNode α)

/-- Start of the node's index range (`node->start`). -/
def nstart {α : Type} : KDNode α → ℕ
  | KDNode.leaf s _ _ => s
  | KDNode.split s _ _ _ _ => s

/-- Size of the node's index range (`node->size`). -/
def nsize {α : Type} : KDNode α → ℕ
  | KDNode.leaf _ z _ => z
  | KDNode.split _ z _ _ _ => z

/-- Bounding box of the node (`kd_node_min` / `kd_node_max`). -/
def nbox {α : Type} : KDNode α → Box α
  | KDNode.leaf _ _ b => b
  | KDNode.split _ _ b _ _ => b

/-- Modelled from the spec: well-formedness of the kd-tree (spec section 6):
the points (through the permutation `ind`) of a node's index range lie in
the node's bounding box, and the two children of an internal node
partition the parent's index range. -/
def TreeWF {α : Type} [LinearOrderedCommRing α] (ind : ℕ → ℕ) (pos : ℕ → Pt α) :
    KDNode α → Prop
  | KDNode.leaf s z b => ∀ k, k < z → inBox b (pos (ind (s + k)))
  | KDNode.split s z b l r =>
      (∀ k, k < z → inBox b (pos (ind (s + k)))) ∧
      nstart l = s ∧ nstart r = s + nsize l ∧ nsize l + nsize r = z ∧
      TreeWF ind pos l ∧ TreeWF ind pos r

instance instDecidableTreeWF {α : Type} [LinearOrderedCommRing α] (ind : ℕ → ℕ)
    (pos : ℕ → Pt α) : (nd : KDNode α) → Decidable (TreeWF ind pos nd)
  | KDNode.leaf _ _ _ => by
      unfold TreeWF
      infer_instance
  | KDNode.split _ _ _ l r =>
      have : Decidable (TreeWF ind pos l) := instDecidableTreeWF ind pos l
      have : Decidable (TreeWF ind pos r) := instDecidableTreeWF ind pos r
      by unfold TreeWF; infer_instance

/-- Mutable state of one labeling run, translated from `TraverseData` in
kd_fof.c: the parent array and the performance counters.  The fields `ll`,
`ll2` and `ind` of the C struct are run-constant and are passed as explicit
arguments instead; the unused `skipped` counter is omitted. -/
structure Trav where
  head : ℕ → ℕ
  visited : ℕ
  connected : ℕ
  maxdepth : ℕ
  nsplay : ℕ
  totaldepth : ℕ

/-- First while-loop of `splay` in kd_fof.c: walk parent pointers from `r`
until a fixed point, returning the root and the number of steps walked
(`depth`).  The C loop is unbounded; the embedding carries fuel, which the
run instantiates with the point count (a bound on the path length whenever
the parent pointers are acyclic). -/
def findLoop : (ℕ → ℕ) → ℕ → ℕ → ℕ × ℕ
  | _, 0, r => (r, 0)
  | head, fuel+1, r =>
      if head r = r then (r, 0)
      else
        let p := findLoop head fuel (head r)
        (p.1, p.2 + 1)

/-- Second while-loop of `splay` in kd_fof.c (the default, safe build):
walk from `i` again, rewriting every pointer on the path directly to the
root `r`. -/
def compress : (ℕ → ℕ) → ℕ → ℕ → ℕ → (ℕ → ℕ)
  | head, 0, _, _ => head
  | head, fuel+1, i, r =>
      if head i = i then head
      else compress (Function.update head i r) fuel (head i) r

/-- The `splay` function of kd_fof.c.  `fc = true` is the default build
(full path compression); `fc = false` is the KD_FOF_UNSAFE build, which
relinks only the query point `i` to the root.  Returns the root and the
updated state; updates the `maxdepth`, `totaldepth` and `nsplay`
diagnostics counters exactly as the C code does. -/
def splay (fc : Bool) (t : Trav) (fuel i : ℕ) : ℕ × Trav :=
  let p := findLoop t.head fuel i
  let h2 := if fc then compress t.head fuel i p.1 else Function.update t.head i p.1
  (p.1,
   { t with
      head := h2
      maxdepth := max t.maxdepth p.2
      totaldepth := t.totaldepth + p.2
      nsplay := t.nsplay + 1 })

/-- The `_kd_fof_visit_edge` callback of kd_fof.c: count the edge, splay
both endpoints, and link the root of `j` directly under the root of `i`. -/
def kd_fof_visit_edge (fc : Bool) (fuel : ℕ) (t : Trav) (pr : ℕ × ℕ) : Trav :=
  let t1 := { t with visited := t.visited + 1 }
  let s1 := splay fc t1 fuel pr.1
  let s2 := splay fc s1.2 fuel pr.2
  { s2.2 with head := Function.update s2.2.head s2.1 s1.1 }

/-- The `_kd_fof_visit_edge_first` callback of kd_fof.c, exactly as
written at lines 120-125: it invokes ITSELF on the same arguments and then
returns -1.  The C recursion has no base case, so the embedding carries
fuel and returns `none` when fuel runs out; `some (state, ret)` would mean
the callback returned.  (The enclosing comment in the C file and the spec
say it should link one representative pair and then stop enumeration,
i.e. call `_kd_fof_visit_edge` and return -1.) -/
def kd_fof_visit_edge_first : ℕ → Trav → ℕ × ℕ → Option (Trav × ℤ)
  | 0, _, _ => none
  | fuel+1, t, pr =>
      match kd_fof_visit_edge_first fuel t pr with
      | none => none
      | some (t2, _) => some (t2, -1)

/-- Inner loop of `connect` in kd_fof.c: for `i` from `start+1` to
`start+size-1`, set `head[ind[i]] := r` (direct parent assignment onto the
representative `r = ind[start]`).  Arguments: current head, loop index,
remaining iteration count. -/
def assignRange (ind : ℕ → ℕ) (r : ℕ) : (ℕ → ℕ) → ℕ → ℕ → (ℕ → ℕ)
  | head, _, 0 => head
  | head, i, c+1 => assignRange ind r (Function.update head (ind i) r) (i+1) c

/-- Result of the prepass on one node: the kd-tree annotated with the
`node_connected` flag that `connect` stores per node (the C code keeps
these flags in a side array indexed by `node->index`; the embedding
attaches each flag to its node). -/
inductive CNode (α : Type) where
  | leaf (start size : ℕ) (box : Box α) (conn : Bool)
  | split (start size : ℕ) (box : Box α) (conn : Bool) (l r : CNode α)

/-- Per-node body of `connect` in kd_fof.c: compute the flag `c`
(inherited, or from the bounding-box diagonal test, in which case all
points of the range are assigned onto the representative `ind[start]`),
and add `c` to the `connected` counter. -/
def connectStep {α : Type} [LinearOrderedCommRing α] (ll2 : α) (ind : ℕ → ℕ) (t : Trav)
    (s z : ℕ) (b : Box α) (pc : Bool) : Trav × Bool :=
  if pc then ({ t with connected := t.connected + 1 }, true)
  else if kd_node_maxdist2 b ≤ ll2 then
    ({ t with
        head := assignRange ind (ind s) t.head (s + 1) (z - 1)
        connected := t.connected + 1 }, true)
  else (t, false)

/-- The `connect` prepass of kd_fof.c: pre-order walk of the kd-tree,
marking internally connected nodes and pre-merging their points; children
inherit the parent's flag. -/
def connect {α : Type} [LinearOrderedCommRing α] (ll2 : α) (ind : ℕ → ℕ) :
    Trav → KDNode α → Bool → Trav × CNode α
  | t, KDNode.leaf s z b, pc =>
      let u := connectStep ll2 ind t s z b pc
      (u.1, CNode.leaf s z b u.2)
  | t, KDNode.split s z b l r, pc =>
      let u := connectStep ll2 ind t s z b pc
      let ul := connect ll2 ind u.1 l u.2
      let ur := connect ll2 ind ul.1 r u.2
      (ur.1, CNode.split s z b u.2 ul.2 ur.2)

/-- Finalization loop of `kd_fof`: for `i` from 0 to `n-1`,
`head[i] := splay(i)`.  Arguments: state, loop index, remaining count. -/
def finalize (fc : Bool) (fuel : ℕ) : Trav → ℕ → ℕ → Trav
  | t, _, 0 => t
  | t, i, c+1 =>
      let s := splay fc t fuel i
      finalize fc fuel { s.2 with head := Function.update s.2.head i s.1 } (i + 1) c

/-- Initial run state: `head[i] = i` for every point and all counters 0,
as set up at the top of `kd_fof`. -/
def initTrav : Trav :=
  { head := id, visited := 0, connected := 0, maxdepth := 0, nsplay := 0, totaldepth := 0 }

/-- Modelled from the spec: one completed labeling run.  The dual-tree
enumeration engine (`kd_enum_always_open` / `kd_enum_check`, not in this
source file) delivers, per spec section 6, every qualifying point pair to
the edge callback in unspecified order; the run is therefore parameterized
by the list `edges` of delivered pairs, and the spec-side constraints on
that list (soundness/completeness of delivery) appear as hypotheses of the
theorems.  On a completed run every union comes from `_kd_fof_visit_edge`:
the only other candidate, `_kd_fof_visit_edge_first`, never returns (it
calls itself unconditionally, see its definition above), so a run in
which it was ever invoked did not complete, and the edge list fully
describes the unions of a completed traversal.  The phases translated
from `kd_fof` itself: head array set
to the identity, `connect` prepass from the root with inherited flag 0,
edge visits, finalization pass, and the diagnostics snapshot (returned
here together with the annotated tree). -/
def kd_fof_run {α : Type} [LinearOrderedCommRing α] (fc : Bool) (nd : KDNode α)
    (ind : ℕ → ℕ) (ll : α) (edges : List (ℕ × ℕ)) : Trav × CNode α :=
  let n := nsize nd
  let c1 := connect (ll * ll) ind initTrav nd false
  let t2 := edges.foldl (fun t pr => kd_fof_visit_edge fc n t pr) c1.1
  let t3 := finalize fc n t2 0 n
  (t3, c1.2)

/-- The `kd_fof` entry point: runs the labeling and returns the C return
value, which is the constant 0 (the single `return 0` at the end of the
function; the result of `calloc` for the flag buffer is never checked and
never influences the return value). -/
def kd_fof {α : Type} [LinearOrderedCommRing α] (fc : Bool) (nd : KDNode α)
    (ind : ℕ → ℕ) (ll : α) (edges : List (ℕ × ℕ)) : (Trav × CNode α) × ℤ :=
  (kd_fof_run fc nd ind ll edges, 0)

/-- The `kd_fof_get_last_traverse_info` accessor: the five diagnostics
counters of the most recent run, in the order of the C out-parameters
(visited, connected, maxdepth, nsplay, totaldepth). -/
def kd_fof_get_last_traverse_info (t : Trav) : ℕ × ℕ × ℕ × ℕ × ℕ :=
  (t.visited, t.connected, t.maxdepth, t.nsplay, t.totaldepth)

/-! ### Reachability in the parent forest -/

/-- Point `r` is the root of the tree containing `i`: it is its own parent
and some number of parent steps from `i` lands on it. -/
def Reach (head : ℕ → ℕ) (i r : ℕ) : Prop :=
  head r = r ∧ ∃ k, head^[k] i = r

/-- Invariant maintained by every phase of a run on `n` points: parent
pointers stay inside `[0, n)`, entries outside are untouched identity, and
every chain of parent pointers terminates at a root (no cycle other than a
root's self-loop). -/
def WfH (n : ℕ) (head : ℕ → ℕ) : Prop :=
  (∀ i, i < n → head i < n) ∧ (∀ i, n ≤ i → head i = i) ∧ (∀ i, ∃ r, Reach head i r)

/-- Two points lie in the same tree of the forest. -/
def SameRoot (head : ℕ → ℕ) (a b : ℕ) : Prop :=
  ∃ r, Reach head a r ∧ Reach head b r

lemma reach_self {head : ℕ → ℕ} {r : ℕ} (h : head r = r) : Reach head r r :=
  ⟨h, 0, rfl⟩

lemma reach_iterate {head : ℕ → ℕ} {i r : ℕ} (h : Reach head i r) (a : ℕ) :
    Reach head (head^[a] i) r := by
  obtain ⟨hr, k, hk⟩ := h
  refine ⟨hr, ?_⟩
  rcases le_or_lt a k with hle | hlt
  · refine ⟨k - a, ?_⟩
    rw [← Function.iterate_add_apply, Nat.sub_add_cancel hle, hk]
  · refine ⟨0, ?_⟩
    have ha : a = (a - k) + k := (Nat.sub_add_cancel hlt.le).symm
    simp only [Function.iterate_zero, id_eq]
    rw [ha, Function.iterate_add_apply, hk, Function.iterate_fixed hr]

lemma reach_unique {head : ℕ → ℕ} {i r r' : ℕ} (h : Reach head i r)
    (h' : Reach head i r') : r = r' := by
  obtain ⟨hr, k, hk⟩ := h
  obtain ⟨hr', k', hk'⟩ := h'
  rcases le_total k k' with hle | hle
  · have : head^[k'] i = r := by
      rw [show k' = (k' - k) + k from (Nat.sub_add_cancel hle).symm,
        Function.iterate_add_apply, hk, Function.iterate_fixed hr]
    rw [← this, hk']
  · have : head^[k] i = r' := by
      rw [show k = (k - k') + k' from (Nat.sub_add_cancel hle).symm,
        Function.iterate_add_apply, hk', Function.iterate_fixed hr']
    rw [← hk, this]

lemma reach_step {head : ℕ → ℕ} {i j r : ℕ} (hij : head i = j) (h : Reach head j r) :
    Reach head i r := by
  obtain ⟨hr, k, hk⟩ := h
  exact ⟨hr, k + 1, by rw [Function.iterate_succ_apply, hij, hk]⟩

lemma reach_root_of_root {head : ℕ → ℕ} {i r : ℕ} (hi : head i = i) (h : Reach head i r) :
    r = i :=
  reach_unique h (reach_self hi)

/-- A nontrivial cycle through `i` is incompatible with `i` reaching a root. -/
lemma reach_no_cycle {head : ℕ → ℕ} {i r b : ℕ} (h : Reach head i r)
    (hb : head^[b] i = i) (hb1 : 1 ≤ b) (hi : head i ≠ i) : False := by
  obtain ⟨hr, k, hk⟩ := h
  rcases Nat.eq_zero_or_pos k with hk0 | hkpos
  · subst hk0
    simp only [Function.iterate_zero, id_eq] at hk
    subst hk
    exact hi hr
  · have hbk : head^[b * k] i = i := by
      rw [Function.iterate_mul]
      exact Function.iterate_fixed hb k
    have hkbk : k ≤ b * k := Nat.le_mul_of_pos_left k hb1
    have : i = r := by
      rw [← hbk, show b * k = (b * k - k) + k from (Nat.sub_add_cancel hkbk).symm,
        Function.iterate_add_apply, hk, Function.iterate_fixed hr]
    subst this
    exact hi hr

lemma iterate_lt {n : ℕ} {head : ℕ → ℕ} (hlt : ∀ j, j < n → head j < n) {i : ℕ}
    (hi : i < n) (a : ℕ) : head^[a] i < n := by
  induction a with
  | zero => simpa using hi
  | succ a ih =>
      rw [Function.iterate_succ_apply']
      exact hlt _ ih

/-- Pigeonhole: when parent pointers stay below `n` and a root is reachable
at all, it is reachable in fewer than `n` steps. -/
lemma reach_bound {n : ℕ} {head : ℕ → ℕ} {i r : ℕ} (hlt : ∀ j, j < n → head j < n)
    (hi : i < n) (h : Reach head i r) : ∃ k, k < n ∧ head^[k] i = r := by
  obtain ⟨hr, hex⟩ := h
  have hfind := Nat.find_spec hex
  set k0 := Nat.find hex with hk0def
  refine ⟨k0, ?_, hfind⟩
  by_contra hge
  push_neg at hge
  have hinj : Set.InjOn (fun a => head^[a] i) (Finset.range (k0 + 1)) := by
    intro a ha b hb hab
    have hab' : head^[a] i = head^[b] i := hab
    simp only [Finset.coe_range, Set.mem_Iio] at ha hb
    by_contra hne
    rcases Nat.lt_or_ge a b with hlt' | hge'
    · have hP : head^[k0 - b + a] i = r := by
        rw [Function.iterate_add_apply, hab', ← Function.iterate_add_apply,
          Nat.sub_add_cancel (Nat.lt_succ_iff.mp hb), hfind]
      have : ¬ (k0 - b + a < k0) := fun hc => Nat.find_min hex hc hP
      omega
    · rcases Nat.lt_or_ge b a with hlt'' | hge''
      · have hP : head^[k0 - a + b] i = r := by
          rw [Function.iterate_add_apply, ← hab', ← Function.iterate_add_apply,
            Nat.sub_add_cancel (Nat.lt_succ_iff.mp ha), hfind]
        have : ¬ (k0 - a + b < k0) := fun hc => Nat.find_min hex hc hP
        omega
      · omega
  have hmaps : ∀ a ∈ Finset.range (k0 + 1), (fun a => head^[a] i) a ∈ Finset.range n := by
    intro a _
    simpa using iterate_lt hlt hi a
  have hcard := Finset.card_le_card_of_injOn _ hmaps hinj
  simp only [Finset.card_range] at hcard
  omega

/-! ### The find-root loop -/

lemma findLoop_eq {head : ℕ → ℕ} {r : ℕ} (hr : head r = r) :
    ∀ fuel i k, head^[k] i = r → k ≤ fuel → (findLoop head fuel i).1 = r := by
  intro fuel
  induction fuel with
  | zero =>
      intro i k hk hfuel
      interval_cases k
      simpa [findLoop] using hk
  | succ fuel ih =>
      intro i k hk hfuel
      by_cases hroot : head i = i
      · have : r = i := by
          rw [← hk, Function.iterate_fixed hroot]
        simp [findLoop, hroot, this]
      · rcases Nat.eq_zero_or_pos k with hk0 | hkpos
        · subst hk0
          simp only [Function.iterate_zero, id_eq] at hk
          subst hk
          exact absurd hr hroot
        · have hk' : head^[k - 1] (head i) = r := by
            have h2 : head^[k - 1 + 1] i = r := by
              rw [show k - 1 + 1 = k by omega]
              exact hk
            rwa [Function.iterate_succ_apply] at h2
          have := ih (head i) (k - 1) hk' (by omega)
          simp [findLoop, hroot, this]

/-- Computed root (first component of `findLoop` with fuel `n`). -/
def rootD (head : ℕ → ℕ) (n i : ℕ) : ℕ := (findLoop head n i).1

lemma rootD_reach {n : ℕ} {head : ℕ → ℕ} (hw : WfH n head) (i : ℕ) :
    Reach head i (rootD head n i) := by
  obtain ⟨hlt, hout, htot⟩ := hw
  rcases Nat.lt_or_ge i n with hin | hout'
  · obtain ⟨r, hr⟩ := htot i
    obtain ⟨k, hkn, hk⟩ := reach_bound hlt hin hr
    have := findLoop_eq hr.1 n i k hk (by omega)
    rw [rootD, this]
    exact hr
  · have hroot : head i = i := hout i hout'
    have := findLoop_eq hroot n i 0 rfl (Nat.zero_le n)
    rw [rootD, this]
    exact reach_self hroot

lemma rootD_eq_of_reach {n : ℕ} {head : ℕ → ℕ} (hw : WfH n head) {i r : ℕ}
    (h : Reach head i r) : rootD head n i = r :=
  reach_unique (rootD_reach hw i) h

lemma sameRoot_refl {n : ℕ} {head : ℕ → ℕ} (hw : WfH n head) (a : ℕ) :
    SameRoot head a a := by
  obtain ⟨r, hr⟩ := hw.2.2 a
  exact ⟨r, hr, hr⟩

lemma sameRoot_symm {head : ℕ → ℕ} {a b : ℕ} (h : SameRoot head a b) :
    SameRoot head b a := by
  obtain ⟨r, h1, h2⟩ := h
  exact ⟨r, h2, h1⟩

lemma sameRoot_trans {head : ℕ → ℕ} {a b c : ℕ} (h : SameRoot head a b)
    (h' : SameRoot head b c) : SameRoot head a c := by
  obtain ⟨r, h1, h2⟩ := h
  obtain ⟨r', h3, h4⟩ := h'
  rw [reach_unique h2 h3] at h1
  exact ⟨r', h1, h4⟩

lemma sameRoot_iff_rootD {n : ℕ} {head : ℕ → ℕ} (hw : WfH n head) (a b : ℕ) :
    SameRoot head a b ↔ rootD head n a = rootD head n b := by
  constructor
  · rintro ⟨r, ha, hb⟩
    rw [rootD_eq_of_reach hw ha, rootD_eq_of_reach hw hb]
  · intro h
    exact ⟨rootD head n b, h ▸ rootD_reach hw a, rootD_reach hw b⟩

/-! ### Chains of linking-length edges -/

/-- One hop of a friend-of-friend chain: both endpoints are points of the
run and their squared distance is at most the squared linking length
(which, for a nonnegative linking length, is exactly distance at most the
linking length). -/
def ChainStep {α : Type} [LinearOrderedCommRing α] (n : ℕ) (pos : ℕ → Pt α) (ll2 : α)
    (a b : ℕ) : Prop :=
  a < n ∧ b < n ∧ dist2 (pos a) (pos b) ≤ ll2

/-- Chain connectivity: the reflexive-transitive closure of single hops. -/
def Chain {α : Type} [LinearOrderedCommRing α] (n : ℕ) (pos : ℕ → Pt α) (ll2 : α) :
    ℕ → ℕ → Prop :=
  Relation.ReflTransGen (ChainStep n pos ll2)

/-- Soundness of a forest state: points in the same tree are chain-connected. -/
def Sound {α : Type} [LinearOrderedCommRing α] (n : ℕ) (pos : ℕ → Pt α) (ll2 : α)
    (head : ℕ → ℕ) : Prop :=
  ∀ a b, a < n → b < n → SameRoot head a b → Chain n pos ll2 a b

lemma dist2_comm {α : Type} [LinearOrderedCommRing α] (p q : Pt α) :
    dist2 p q = dist2 q p := by
  unfold dist2
  ring

lemma chainStep_symm {α : Type} [LinearOrderedCommRing α] {n : ℕ} {pos : ℕ → Pt α}
    {ll2 : α} : Symmetric (ChainStep n pos ll2) := by
  rintro a b ⟨ha, hb, hd⟩
  exact ⟨hb, ha, by rwa [dist2_comm]⟩

lemma chain_symm {α : Type} [LinearOrderedCommRing α] {n : ℕ} {pos : ℕ → Pt α} {ll2 : α}
    {a b : ℕ} (h : Chain n pos ll2 a b) : Chain n pos ll2 b a :=
  Relation.ReflTransGen.symmetric chainStep_symm h

lemma chain_single {α : Type} [LinearOrderedCommRing α] {n : ℕ} {pos : ℕ → Pt α} {ll2 : α}
    {a b : ℕ} (h : ChainStep n pos ll2 a b) : Chain n pos ll2 a b :=
  Relation.ReflTransGen.single h

/-! ### Rewiring: operations that re-point nodes to their own roots -/

/-- Conservative rewiring: every modified entry is re-pointed to the old
root of its own tree.  Path compression (both builds) and the finalization
assignments are all of this shape. -/
def Rewire (head head' : ℕ → ℕ) : Prop :=
  ∀ k, head' k = head k ∨ ∃ ρ, Reach head k ρ ∧ head' k = ρ

lemma reach_rewire_fwd {head head' : ℕ → ℕ} (hcons : Rewire head head') :
    ∀ m k r, head^[m] k = r → head r = r → Reach head' k r := by
  intro m
  induction m using Nat.strong_induction_on with
  | _ m ih =>
    intro k r hk hr
    have hr' : head' r = r := by
      rcases hcons r with h | ⟨ρ, hρ, h⟩
      · rw [h, hr]
      · rw [h, reach_root_of_root hr hρ]
    rcases hcons k with h | ⟨ρ, hρ, h⟩
    · by_cases hkk : head k = k
      · have hrk : r = k := by rw [← hk, Function.iterate_fixed hkk]
        rw [hrk]
        exact reach_self (by rw [h, hkk])
      · rcases Nat.eq_zero_or_pos m with hm0 | hmpos
        · subst hm0
          simp only [Function.iterate_zero, id_eq] at hk
          subst hk
          exact absurd hr hkk
        · have hk' : head^[m - 1] (head k) = r := by
            have h2 : head^[m - 1 + 1] k = r := by
              rw [show m - 1 + 1 = m by omega]
              exact hk
            rwa [Function.iterate_succ_apply] at h2
          exact reach_step h (ih (m - 1) (by omega) (head k) r hk' hr)
    · have hρr : ρ = r := reach_unique hρ ⟨hr, m, hk⟩
      refine ⟨hr', 1, ?_⟩
      rw [Function.iterate_one, h, hρr]

lemma reach_rewire {head head' : ℕ → ℕ} (hcons : Rewire head head')
    (htot : ∀ k, ∃ r, Reach head k r) (k r : ℕ) :
    Reach head k r ↔ Reach head' k r := by
  constructor
  · rintro ⟨hr, m, hm⟩
    exact reach_rewire_fwd hcons m k r hm hr
  · intro h'
    obtain ⟨r0, h0⟩ := htot k
    obtain ⟨hr0, m0, hm0⟩ := h0
    have h0' : Reach head' k r0 := reach_rewire_fwd hcons m0 k r0 hm0 hr0
    rw [reach_unique h' h0']
    exact ⟨hr0, m0, hm0⟩

lemma wfH_rewire {n : ℕ} {head head' : ℕ → ℕ} (hw : WfH n head)
    (hcons : Rewire head head') : WfH n head' := by
  obtain ⟨hlt, hout, htot⟩ := hw
  refine ⟨?_, ?_, ?_⟩
  · intro i hi
    rcases hcons i with h | ⟨ρ, hρ, h⟩
    · rw [h]
      exact hlt i hi
    · obtain ⟨hρr, m, hm⟩ := hρ
      rw [h, ← hm]
      exact iterate_lt hlt hi m
  · intro i hi
    rcases hcons i with h | ⟨ρ, hρ, h⟩
    · rw [h]
      exact hout i hi
    · rw [h, reach_root_of_root (hout i hi) hρ]
  · intro i
    obtain ⟨r, hr⟩ := htot i
    exact ⟨r, (reach_rewire hcons htot i r).mp hr⟩

lemma sameRoot_rewire {head head' : ℕ → ℕ} (hcons : Rewire head head')
    (htot : ∀ k, ∃ r, Reach head k r) (a b : ℕ) :
    SameRoot head a b ↔ SameRoot head' a b := by
  unfold SameRoot
  constructor
  · rintro ⟨r, h1, h2⟩
    exact ⟨r, (reach_rewire hcons htot a r).mp h1, (reach_rewire hcons htot b r).mp h2⟩
  · rintro ⟨r, h1, h2⟩
    exact ⟨r, (reach_rewire hcons htot a r).mpr h1, (reach_rewire hcons htot b r).mpr h2⟩

lemma sound_rewire {α : Type} [LinearOrderedCommRing α] {n : ℕ} {pos : ℕ → Pt α} {ll2 : α}
    {head head' : ℕ → ℕ} (hs : Sound n pos ll2 head) (hcons : Rewire head head')
    (htot : ∀ k, ∃ r, Reach head k r) : Sound n pos ll2 head' := by
  intro a b ha hb hsr
  exact hs a b ha hb ((sameRoot_rewire hcons htot a b).mpr hsr)

/-! ### Linking: attaching one root under another -/

lemma update_root_self {head : ℕ → ℕ} {rj ri : ℕ} (hri : head ri = ri) :
    Function.update head rj ri ri = ri := by
  by_cases h : ri = rj
  · rw [h, Function.update_same]
  · rw [Function.update_noteq h, hri]

lemma reach_link_to_rj {head : ℕ → ℕ} {rj ri : ℕ} (hrj : head rj = rj)
    (hri : head ri = ri) :
    ∀ m k, head^[m] k = rj → Reach (Function.update head rj ri) k ri := by
  intro m
  induction m using Nat.strong_induction_on with
  | _ m ih =>
    intro k hm
    by_cases hkrj : k = rj
    · subst hkrj
      exact ⟨update_root_self hri, 1, by rw [Function.iterate_one, Function.update_same]⟩
    · rcases Nat.eq_zero_or_pos m with hm0 | hmpos
      · subst hm0
        simp only [Function.iterate_zero, id_eq] at hm
        exact absurd hm hkrj
      · have hk' : head^[m - 1] (head k) = rj := by
          have h2 : head^[m - 1 + 1] k = rj := by
            rw [show m - 1 + 1 = m by omega]
            exact hm
          rwa [Function.iterate_succ_apply] at h2
        exact reach_step (Function.update_noteq hkrj ri head)
          (ih (m - 1) (by omega) (head k) hk')

lemma reach_link {head : ℕ → ℕ} {rj ri : ℕ} (hrj : head rj = rj) (hri : head ri = ri) :
    ∀ k r, Reach head k r →
      Reach (Function.update head rj ri) k (if r = rj then ri else r) := by
  intro k r hkr
  by_cases hr : r = rj
  · subst hr
    rw [if_pos rfl]
    obtain ⟨hroot, m, hm⟩ := hkr
    exact reach_link_to_rj hrj hri m k hm
  · rw [if_neg hr]
    obtain ⟨hroot, m, hm⟩ := hkr
    have havoid : ∀ a, head^[a] k ≠ rj := by
      intro a ha
      have h1 : Reach head (head^[a] k) r := reach_iterate ⟨hroot, m, hm⟩ a
      rw [ha] at h1
      exact hr (reach_root_of_root hrj h1)
    have hiter : ∀ a, (Function.update head rj ri)^[a] k = head^[a] k := by
      intro a
      induction a with
      | zero => simp
      | succ a iha =>
          rw [Function.iterate_succ_apply', Function.iterate_succ_apply', iha,
            Function.update_noteq (havoid a)]
    refine ⟨?_, m, by rw [hiter m]; exact hm⟩
    rw [Function.update_noteq hr, hroot]

lemma reach_link_char {n : ℕ} {head : ℕ → ℕ} {rj ri : ℕ} (hw : WfH n head)
    (hrj : head rj = rj) (hri : head ri = ri) (k r' : ℕ) :
    Reach (Function.update head rj ri) k r' ↔
      ∃ r, Reach head k r ∧ r' = if r = rj then ri else r := by
  constructor
  · intro h'
    obtain ⟨r, hr⟩ := hw.2.2 k
    exact ⟨r, hr, reach_unique h' (reach_link hrj hri k r hr)⟩
  · rintro ⟨r, hr, h⟩
    rw [h]
    exact reach_link hrj hri k r hr

lemma wfH_link {n : ℕ} {head : ℕ → ℕ} {rj ri : ℕ} (hw : WfH n head)
    (hrj : head rj = rj) (hri : head ri = ri) (hrjn : rj < n) (hrin : ri < n) :
    WfH n (Function.update head rj ri) := by
  obtain ⟨hlt, hout, htot⟩ := hw
  refine ⟨?_, ?_, ?_⟩
  · intro i hi
    by_cases h : i = rj
    · rw [h, Function.update_same]
      exact hrin
    · rw [Function.update_noteq h]
      exact hlt i hi
  · intro i hi
    have : i ≠ rj := by omega
    rw [Function.update_noteq this]
    exact hout i hi
  · intro i
    obtain ⟨r, hr⟩ := htot i
    exact ⟨_, reach_link hrj hri i r hr⟩

lemma sameRoot_link_mono {head : ℕ → ℕ} {rj ri : ℕ} (hrj : head rj = rj)
    (hri : head ri = ri) {a b : ℕ} (h : SameRoot head a b) :
    SameRoot (Function.update head rj ri) a b := by
  obtain ⟨r, h1, h2⟩ := h
  exact ⟨_, reach_link hrj hri a r h1, reach_link hrj hri b r h2⟩

/-- After linking `head[rj] := ri`, the trees that contained `rj` and `ri`
are merged. -/
lemma sameRoot_link_new {head : ℕ → ℕ} {rj ri : ℕ} (hrj : head rj = rj)
    (hri : head ri = ri) {p q : ℕ} (hp : Reach head p ri) (hq : Reach head q rj) :
    SameRoot (Function.update head rj ri) p q := by
  have h1 := reach_link hrj hri p ri hp
  have h2 := reach_link hrj hri q rj hq
  rw [if_pos rfl] at h2
  rw [ite_self] at h1
  exact ⟨ri, h1, h2⟩

lemma sound_link {α : Type} [LinearOrderedCommRing α] {n : ℕ} {pos : ℕ → Pt α} {ll2 : α}
    {head : ℕ → ℕ} {rj ri p q : ℕ} (hw : WfH n head) (hs : Sound n pos ll2 head)
    (hrj : head rj = rj) (hri : head ri = ri) (hp : Reach head p ri) (hq : Reach head q rj)
    (hpq : Chain n pos ll2 p q) (hpn : p < n) (hqn : q < n) :
    Sound n pos ll2 (Function.update head rj ri) := by
  intro a b ha hb hsr
  obtain ⟨r', h1, h2⟩ := hsr
  rw [reach_link_char hw hrj hri] at h1 h2
  obtain ⟨ra, hra, hra'⟩ := h1
  obtain ⟨rb, hrb, hrb'⟩ := h2
  by_cases hca : ra = rj <;> by_cases hcb : rb = rj
  · exact hs a b ha hb ⟨rj, hca ▸ hra, hcb ▸ hrb⟩
  · -- a hangs under the old tree of rj, b under the old tree of ri
    rw [if_pos hca] at hra'
    rw [if_neg hcb] at hrb'
    have hrbri : rb = ri := hrb'.symm.trans hra'
    have hchain1 : Chain n pos ll2 a q := hs a q ha hqn ⟨rj, hca ▸ hra, hq⟩
    have hchain2 : Chain n pos ll2 p b := hs p b hpn hb ⟨ri, hp, hrbri ▸ hrb⟩
    exact hchain1.trans ((chain_symm hpq).trans hchain2)
  · rw [if_neg hca] at hra'
    rw [if_pos hcb] at hrb'
    have hrari : ra = ri := hra'.symm.trans hrb'
    have hchain1 : Chain n pos ll2 a p := hs a p ha hpn ⟨ri, hrari ▸ hra, hp⟩
    have hchain2 : Chain n pos ll2 q b := hs q b hqn hb ⟨rj, hq, hcb ▸ hrb⟩
    exact hchain1.trans (hpq.trans hchain2)
  · rw [if_neg hca] at hra'
    rw [if_neg hcb] at hrb'
    exact hs a b ha hb ⟨ra, hra, (hrb'.symm.trans hra') ▸ hrb⟩

/-! ### Path compression -/

/-- The walked path of the find-root loop: the nodes visited strictly
before the root, in visit order. -/
def pathList : (ℕ → ℕ) → ℕ → ℕ → List ℕ
  | _, 0, _ => []
  | head, fuel+1, i => if head i = i then [] else i :: pathList head fuel (head i)

lemma pathList_mem {head : ℕ → ℕ} :
    ∀ fuel i kk, kk ∈ pathList head fuel i → ∃ a, kk = head^[a] i := by
  intro fuel
  induction fuel with
  | zero => intro i kk h; simp [pathList] at h
  | succ fuel ih =>
      intro i kk h
      by_cases hroot : head i = i
      · simp [pathList, hroot] at h
      · rw [pathList, if_neg hroot, List.mem_cons] at h
        rcases h with h | h
        · exact ⟨0, by simpa using h⟩
        · obtain ⟨a, ha⟩ := ih (head i) kk h
          exact ⟨a + 1, by rw [ha, Function.iterate_succ_apply]⟩

lemma iterate_update_eq {head : ℕ → ℕ} {i r j : ℕ} (hne : ∀ a, head^[a] j ≠ i) :
    ∀ a, (Function.update head i r)^[a] j = head^[a] j := by
  intro a
  induction a with
  | zero => simp
  | succ a iha =>
      rw [Function.iterate_succ_apply', Function.iterate_succ_apply', iha,
        Function.update_noteq (hne a)]

lemma pathList_update_eq {head : ℕ → ℕ} {i r : ℕ} :
    ∀ fuel j, (∀ a, head^[a] j ≠ i) →
      pathList (Function.update head i r) fuel j = pathList head fuel j := by
  intro fuel
  induction fuel with
  | zero => intro j _; rfl
  | succ fuel ih =>
      intro j hne
      have hji : j ≠ i := by simpa using hne 0
      have hval : Function.update head i r j = head j := Function.update_noteq hji r head
      by_cases hroot : head j = j
      · rw [pathList, pathList, if_pos (hval.trans hroot), if_pos hroot]
      · rw [pathList, pathList, if_neg (by rw [hval]; exact hroot), if_neg hroot, hval]
        congr 1
        exact ih (head j) (fun a => by
          have := hne (a + 1)
          rwa [Function.iterate_succ_apply] at this)

/-- Characterization of the compression loop: every node on the walked
path is re-pointed to `r`, every other entry is untouched. -/
lemma compress_char {r : ℕ} :
    ∀ fuel (head : ℕ → ℕ) i m, head^[m] i = r → head r = r → m ≤ fuel →
      ∀ kk, compress head fuel i r kk = if kk ∈ pathList head fuel i then r else head kk := by
  intro fuel
  induction fuel with
  | zero =>
      intro head i m hm hr hmf kk
      simp [compress, pathList]
  | succ fuel ih =>
      intro head i m hm hr hmf kk
      by_cases hroot : head i = i
      · simp [compress, pathList, hroot]
      · have hmpos : 0 < m := by
          rcases Nat.eq_zero_or_pos m with h0 | h
          · subst h0
            simp only [Function.iterate_zero, id_eq] at hm
            subst hm
            exact absurd hr hroot
          · exact h
        have hir : i ≠ r := fun h => hroot (by rw [h] at hroot ⊢; exact hr)
        have hne : ∀ a, head^[a] (head i) ≠ i := by
          intro a ha
          have hb : head^[a + 1] i = i := by rwa [Function.iterate_succ_apply]
          exact reach_no_cycle ⟨hr, m, hm⟩ hb (by omega) hroot
        have hm' : head^[m - 1] (head i) = r := by
          have h2 : head^[m - 1 + 1] i = r := by
            rw [show m - 1 + 1 = m by omega]
            exact hm
          rwa [Function.iterate_succ_apply] at h2
        have hm1 : (Function.update head i r)^[m - 1] (head i) = r := by
          rw [iterate_update_eq hne]
          exact hm'
        have hr1 : Function.update head i r r = r := by
          rw [Function.update_noteq (fun h => hir h.symm), hr]
        have hih := ih (Function.update head i r) (head i) (m - 1) hm1 hr1 (by omega) kk
        rw [compress, if_neg hroot, hih, pathList_update_eq fuel (head i) hne,
          pathList, if_neg hroot]
        by_cases hki : kk = i
        · subst hki
          have hnotmem : kk ∉ pathList head fuel (head kk) := by
            intro hmem
            obtain ⟨a, ha⟩ := pathList_mem fuel (head kk) kk hmem
            exact hne a ha.symm
          rw [if_neg hnotmem, if_pos (List.mem_cons_self kk _), Function.update_same]
        · by_cases hmem : kk ∈ pathList head fuel (head i)
          · rw [if_pos hmem, if_pos (List.mem_cons_of_mem i hmem)]
          · have hc : kk ∉ i :: pathList head fuel (head i) := by
              intro hc
              rcases List.mem_cons.mp hc with h | h
              · exact hki h
              · exact hmem h
            rw [if_neg hmem, if_neg hc, Function.update_noteq hki]

lemma reach_bound' {n : ℕ} {head : ℕ → ℕ} {i r : ℕ} (hw : WfH n head)
    (h : Reach head i r) : ∃ k, k ≤ n ∧ head^[k] i = r := by
  rcases Nat.lt_or_ge i n with hin | hout
  · obtain ⟨k, hk, hk'⟩ := reach_bound hw.1 hin h
    exact ⟨k, by omega, hk'⟩
  · have : r = i := reach_root_of_root (hw.2.1 i hout) h
    exact ⟨0, Nat.zero_le n, this.symm⟩

lemma compress_rewire {n : ℕ} {head : ℕ → ℕ} {i : ℕ} (hw : WfH n head) {r : ℕ}
    (h : Reach head i r) : Rewire head (compress head n i r) := by
  obtain ⟨m, hmn, hm⟩ := reach_bound' hw h
  intro kk
  rw [compress_char n head i m hm h.1 hmn kk]
  by_cases hmem : kk ∈ pathList head n i
  · rw [if_pos hmem]
    obtain ⟨a, ha⟩ := pathList_mem n i kk hmem
    exact Or.inr ⟨r, ha ▸ reach_iterate h a, rfl⟩
  · rw [if_neg hmem]
    exact Or.inl rfl

/-! ### Splay-level facts -/

lemma splay_root (fc : Bool) (t : Trav) (n i : ℕ) :
    (splay fc t n i).1 = rootD t.head n i := rfl

lemma splay_head_rewire {n : ℕ} (fc : Bool) (t : Trav) (hw : WfH n t.head) (i : ℕ) :
    Rewire t.head (splay fc t n i).2.head := by
  have hreach := rootD_reach hw i
  cases fc with
  | true =>
      simpa [splay] using compress_rewire hw hreach
  | false =>
      intro kk
      by_cases hki : kk = i
      · subst hki
        exact Or.inr ⟨rootD t.head n kk, hreach, by simp [splay, rootD, Function.update_same]⟩
      · exact Or.inl (by simp [splay, Function.update_noteq hki])

lemma splay_wfH {n : ℕ} (fc : Bool) (t : Trav) (hw : WfH n t.head) (i : ℕ) :
    WfH n (splay fc t n i).2.head :=
  wfH_rewire hw (splay_head_rewire fc t hw i)

lemma splay_reach_iff {n : ℕ} (fc : Bool) (t : Trav) (hw : WfH n t.head) (i : ℕ)
    (k r : ℕ) : Reach t.head k r ↔ Reach (splay fc t n i).2.head k r :=
  reach_rewire (splay_head_rewire fc t hw i) hw.2.2 k r

lemma splay_connected (fc : Bool) (t : Trav) (n i : ℕ) :
    (splay fc t n i).2.connected = t.connected := rfl

lemma splay_visited (fc : Bool) (t : Trav) (n i : ℕ) :
    (splay fc t n i).2.visited = t.visited := rfl

/-! ### Edge-visitor facts -/

lemma visit_edge_connected (fc : Bool) (n : ℕ) (t : Trav) (pr : ℕ × ℕ) :
    (kd_fof_visit_edge fc n t pr).connected = t.connected := rfl

lemma visit_edge_visited (fc : Bool) (n : ℕ) (t : Trav) (pr : ℕ × ℕ) :
    (kd_fof_visit_edge fc n t pr).visited = t.visited + 1 := rfl

lemma rootD_lt {n : ℕ} {head : ℕ → ℕ} (hw : WfH n head) {i : ℕ} (hi : i < n) :
    rootD head n i < n := by
  obtain ⟨hr, a, ha⟩ := rootD_reach hw i
  rw [← ha]
  exact iterate_lt hw.1 hi a

/-- Master specification of `_kd_fof_visit_edge` on a pair `(p, q)` of
in-range points: the invariant is preserved and the trees of `p` and `q`
are merged — the new root of any point is its old root, except that the
old tree of `q`'s root now hangs under `p`'s root. -/
lemma visit_edge_spec {n : ℕ} (fc : Bool) (t : Trav) (hw : WfH n t.head) {p q : ℕ}
    (hp : p < n) (hq : q < n) :
    WfH n (kd_fof_visit_edge fc n t (p, q)).head ∧
    (∀ k r, Reach (kd_fof_visit_edge fc n t (p, q)).head k r ↔
      ∃ ρ, Reach t.head k ρ ∧
        r = if ρ = rootD t.head n q then rootD t.head n p else ρ) := by
  set t1 : Trav := { t with visited := t.visited + 1 } with ht1
  have ht1h : t1.head = t.head := rfl
  have hw0 : WfH n t1.head := hw
  set s1 := splay fc t1 n p with hs1
  have hri : s1.1 = rootD t.head n p := splay_root fc t1 n p
  have hw1 : WfH n s1.2.head := splay_wfH fc t1 hw0 p
  have hiff1 : ∀ k r, Reach t.head k r ↔ Reach s1.2.head k r :=
    splay_reach_iff fc t1 hw0 p
  set s2 := splay fc s1.2 n q with hs2
  have hw2 : WfH n s2.2.head := splay_wfH fc s1.2 hw1 q
  have hiff2 : ∀ k r, Reach s1.2.head k r ↔ Reach s2.2.head k r :=
    splay_reach_iff fc s1.2 hw1 q
  have hiff12 : ∀ k r, Reach t.head k r ↔ Reach s2.2.head k r := fun k r =>
    (hiff1 k r).trans (hiff2 k r)
  have hrj : s2.1 = rootD t.head n q := by
    rw [splay_root]
    exact rootD_eq_of_reach hw1 ((hiff1 q _).mp (rootD_reach hw q))
  have hreachp : Reach s2.2.head p (rootD t.head n p) :=
    (hiff12 p _).mp (rootD_reach hw p)
  have hreachq : Reach s2.2.head q (rootD t.head n q) :=
    (hiff12 q _).mp (rootD_reach hw q)
  have hri_root : s2.2.head (rootD t.head n p) = rootD t.head n p := hreachp.1
  have hrj_root : s2.2.head (rootD t.head n q) = rootD t.head n q := hreachq.1
  have hresult : (kd_fof_visit_edge fc n t (p, q)).head =
      Function.update s2.2.head (rootD t.head n q) (rootD t.head n p) := by
    rw [kd_fof_visit_edge, ← ht1, ← hs1, ← hs2, hri, hrj]
  constructor
  · rw [hresult]
    exact wfH_link hw2 hrj_root hri_root (rootD_lt hw hq) (rootD_lt hw hp)
  · intro k r
    rw [hresult, reach_link_char hw2 hrj_root hri_root]
    constructor
    · rintro ⟨ρ, hρ, hr⟩
      exact ⟨ρ, (hiff12 k ρ).mpr hρ, hr⟩
    · rintro ⟨ρ, hρ, hr⟩
      exact ⟨ρ, (hiff12 k ρ).mp hρ, hr⟩

lemma visit_edge_wfH {n : ℕ} (fc : Bool) (t : Trav) (hw : WfH n t.head) {p q : ℕ}
    (hp : p < n) (hq : q < n) : WfH n (kd_fof_visit_edge fc n t (p, q)).head :=
  (visit_edge_spec fc t hw hp hq).1

lemma visit_edge_mono {n : ℕ} (fc : Bool) (t : Trav) (hw : WfH n t.head) {p q : ℕ}
    (hp : p < n) (hq : q < n) {a b : ℕ} (h : SameRoot t.head a b) :
    SameRoot (kd_fof_visit_edge fc n t (p, q)).head a b := by
  obtain ⟨r, h1, h2⟩ := h
  refine ⟨if r = rootD t.head n q then rootD t.head n p else r, ?_, ?_⟩
  · exact ((visit_edge_spec fc t hw hp hq).2 a _).mpr ⟨r, h1, rfl⟩
  · exact ((visit_edge_spec fc t hw hp hq).2 b _).mpr ⟨r, h2, rfl⟩

lemma visit_edge_new {n : ℕ} (fc : Bool) (t : Trav) (hw : WfH n t.head) {p q : ℕ}
    (hp : p < n) (hq : q < n) :
    SameRoot (kd_fof_visit_edge fc n t (p, q)).head p q := by
  refine ⟨rootD t.head n p, ?_, ?_⟩
  · refine ((visit_edge_spec fc t hw hp hq).2 p _).mpr ⟨rootD t.head n p, rootD_reach hw p, ?_⟩
    rw [ite_self]
  · exact ((visit_edge_spec fc t hw hp hq).2 q _).mpr
      ⟨rootD t.head n q, rootD_reach hw q, by rw [if_pos rfl]⟩

lemma visit_edge_sound {α : Type} [LinearOrderedCommRing α] {n : ℕ} {pos : ℕ → Pt α}
    {ll2 : α} (fc : Bool) (t : Trav) (hw : WfH n t.head) {p q : ℕ} (hp : p < n)
    (hq : q < n) (hs : Sound n pos ll2 t.head) (hpq : Chain n pos ll2 p q) :
    Sound n pos ll2 (kd_fof_visit_edge fc n t (p, q)).head := by
  intro a b ha hb hsr
  obtain ⟨r', h1, h2⟩ := hsr
  rw [(visit_edge_spec fc t hw hp hq).2 a] at h1
  rw [(visit_edge_spec fc t hw hp hq).2 b] at h2
  obtain ⟨ra, hra, hra'⟩ := h1
  obtain ⟨rb, hrb, hrb'⟩ := h2
  set rj := rootD t.head n q
  set ri := rootD t.head n p
  have hrp : Reach t.head p ri := rootD_reach hw p
  have hrq : Reach t.head q rj := rootD_reach hw q
  by_cases hca : ra = rj <;> by_cases hcb : rb = rj
  · exact hs a b ha hb ⟨rj, hca ▸ hra, hcb ▸ hrb⟩
  · rw [if_pos hca] at hra'
    rw [if_neg hcb] at hrb'
    have hrbri : rb = ri := hrb'.symm.trans hra'
    have hchain1 : Chain n pos ll2 a q := hs a q ha hq ⟨rj, hca ▸ hra, hrq⟩
    have hchain2 : Chain n pos ll2 p b := hs p b hp hb ⟨ri, hrp, hrbri ▸ hrb⟩
    exact hchain1.trans ((chain_symm hpq).trans hchain2)
  · rw [if_neg hca] at hra'
    rw [if_pos hcb] at hrb'
    have hrari : ra = ri := hra'.symm.trans hrb'
    have hchain1 : Chain n pos ll2 a p := hs a p ha hp ⟨ri, hrari ▸ hra, hrp⟩
    have hchain2 : Chain n pos ll2 q b := hs q b hq hb ⟨rj, hrq, hcb ▸ hrb⟩
    exact hchain1.trans (hpq.trans hchain2)
  · rw [if_neg hca] at hra'
    rw [if_neg hcb] at hrb'
    exact hs a b ha hb ⟨ra, hra, (hrb'.symm.trans hra') ▸ hrb⟩

/-! ### The edge-enumeration phase -/

/-- Invariants through the whole sequence of delivered edges: the forest
stays well-formed and sound, existing merges are preserved, every
delivered pair ends up merged, and the `connected` counter is untouched. -/
lemma foldEdges_spec {α : Type} [LinearOrderedCommRing α] {n : ℕ} {pos : ℕ → Pt α}
    {ll2 : α} (fc : Bool) :
    ∀ (edges : List (ℕ × ℕ)) (t : Trav), WfH n t.head → Sound n pos ll2 t.head →
      (∀ pr ∈ edges, pr.1 < n ∧ pr.2 < n ∧ dist2 (pos pr.1) (pos pr.2) ≤ ll2) →
      WfH n (edges.foldl (fun s pr => kd_fof_visit_edge fc n s pr) t).head ∧
      Sound n pos ll2 (edges.foldl (fun s pr => kd_fof_visit_edge fc n s pr) t).head ∧
      (∀ a b, SameRoot t.head a b →
        SameRoot (edges.foldl (fun s pr => kd_fof_visit_edge fc n s pr) t).head a b) ∧
      (∀ pr ∈ edges,
        SameRoot (edges.foldl (fun s pr => kd_fof_visit_edge fc n s pr) t).head pr.1 pr.2) ∧
      (edges.foldl (fun s pr => kd_fof_visit_edge fc n s pr) t).connected = t.connected := by
  intro edges
  induction edges with
  | nil =>
      intro t hw hs _
      refine ⟨hw, hs, fun a b h => h, ?_, rfl⟩
      intro pr hpr
      simp at hpr
  | cons e rest ih =>
      intro t hw hs hsound
      obtain ⟨p, q⟩ := e
      obtain ⟨hp, hq, hd⟩ := hsound (p, q) (List.mem_cons_self _ _)
      have hchain : Chain n pos ll2 p q := chain_single ⟨hp, hq, hd⟩
      have hw' : WfH n (kd_fof_visit_edge fc n t (p, q)).head := visit_edge_wfH fc t hw hp hq
      have hs' : Sound n pos ll2 (kd_fof_visit_edge fc n t (p, q)).head :=
        visit_edge_sound fc t hw hp hq hs hchain
      have hsound' : ∀ pr ∈ rest, pr.1 < n ∧ pr.2 < n ∧ dist2 (pos pr.1) (pos pr.2) ≤ ll2 :=
        fun pr hpr => hsound pr (List.mem_cons_of_mem _ hpr)
      obtain ⟨ihw, ihs, ihmono, ihall, ihconn⟩ := ih (kd_fof_visit_edge fc n t (p, q)) hw' hs' hsound'
      rw [List.foldl_cons]
      refine ⟨ihw, ihs, ?_, ?_, by rw [ihconn, visit_edge_connected]⟩
      · intro a b h
        exact ihmono a b (visit_edge_mono fc t hw hp hq h)
      · intro pr hpr
        rcases List.mem_cons.mp hpr with h | h
        · have : SameRoot (kd_fof_visit_edge fc n t (p, q)).head pr.1 pr.2 := by
            rw [h]
            exact visit_edge_new fc t hw hp hq
          exact ihmono _ _ this
        · exact ihall pr h

/-- The two compression builds perform the same merges: starting from
states with identical tree partitions, every edge visit preserves that
the partitions coincide. -/
lemma foldEdges_bisim {n : ℕ} :
    ∀ (edges : List (ℕ × ℕ)) (ts tu : Trav), WfH n ts.head → WfH n tu.head →
      (∀ k r, Reach ts.head k r ↔ Reach tu.head k r) →
      (∀ pr ∈ edges, pr.1 < n ∧ pr.2 < n) →
      WfH n ((edges.foldl (fun s pr => kd_fof_visit_edge true n s pr) ts).head) ∧
      WfH n ((edges.foldl (fun s pr => kd_fof_visit_edge false n s pr) tu).head) ∧
      (∀ k r, Reach (edges.foldl (fun s pr => kd_fof_visit_edge true n s pr) ts).head k r ↔
        Reach (edges.foldl (fun s pr => kd_fof_visit_edge false n s pr) tu).head k r) := by
  intro edges
  induction edges with
  | nil =>
      intro ts tu hws hwu hiff _
      exact ⟨hws, hwu, hiff⟩
  | cons e rest ih =>
      intro ts tu hws hwu hiff hb
      obtain ⟨p, q⟩ := e
      obtain ⟨hp, hq⟩ := hb (p, q) (List.mem_cons_self _ _)
      have hroots : ∀ x, rootD tu.head n x = rootD ts.head n x := fun x =>
        rootD_eq_of_reach hwu ((hiff x _).mp (rootD_reach hws x))
      have hws' := visit_edge_wfH true ts hws hp hq
      have hwu' := visit_edge_wfH false tu hwu hp hq
      have hiff' : ∀ k r, Reach (kd_fof_visit_edge true n ts (p, q)).head k r ↔
          Reach (kd_fof_visit_edge false n tu (p, q)).head k r := by
        intro k r
        rw [(visit_edge_spec true ts hws hp hq).2 k r,
          (visit_edge_spec false tu hwu hp hq).2 k r]
        constructor
        · rintro ⟨ρ, hρ, hr⟩
          exact ⟨ρ, (hiff k ρ).mp hρ, by rw [hroots q, hroots p]; exact hr⟩
        · rintro ⟨ρ, hρ, hr⟩
          exact ⟨ρ, (hiff k ρ).mpr hρ, by rw [hroots q, hroots p] at hr; exact hr⟩
      have hb' : ∀ pr ∈ rest, pr.1 < n ∧ pr.2 < n :=
        fun pr hpr => hb pr (List.mem_cons_of_mem _ hpr)
      have := ih (kd_fof_visit_edge true n ts (p, q)) (kd_fof_visit_edge false n tu (p, q))
        hws' hwu' hiff' hb'
      rw [List.foldl_cons, List.foldl_cons]
      exact this

/-! ### The finalization pass -/

/-- Invariant of the finalization loop over indices `[i, i+c)`: the
partition is unchanged, processed entries hold their root, and every entry
is either untouched or holds its own root. -/
lemma finalize_spec {n : ℕ} (fc : Bool) :
    ∀ (c i : ℕ) (t : Trav), WfH n t.head →
      WfH n (finalize fc n t i c).head ∧
      (∀ k r, Reach t.head k r ↔ Reach (finalize fc n t i c).head k r) ∧
      (∀ j, i ≤ j → j < i + c → (finalize fc n t i c).head j = rootD t.head n j) ∧
      (∀ j, (finalize fc n t i c).head j = t.head j ∨
        (finalize fc n t i c).head j = rootD t.head n j) ∧
      (finalize fc n t i c).connected = t.connected := by
  intro c
  induction c with
  | zero =>
      intro i t hw
      refine ⟨hw, fun k r => Iff.rfl, ?_, fun j => Or.inl rfl, rfl⟩
      intro j h1 h2
      omega
  | succ c ih =>
      intro i t hw
      set s := splay fc t n i with hs
      have hsroot : s.1 = rootD t.head n i := splay_root fc t n i
      have hws : WfH n s.2.head := splay_wfH fc t hw i
      have hiffs : ∀ k r, Reach t.head k r ↔ Reach s.2.head k r := splay_reach_iff fc t hw i
      have hrew : Rewire t.head s.2.head := splay_head_rewire fc t hw i
      set t' : Trav := { s.2 with head := Function.update s.2.head i s.1 } with ht'
      have hreachi : Reach s.2.head i (rootD t.head n i) := (hiffs i _).mp (rootD_reach hw i)
      have hrewu : Rewire s.2.head t'.head := by
        intro kk
        by_cases hki : kk = i
        · subst hki
          exact Or.inr ⟨rootD t.head n kk, hreachi, by
            simp only [ht', Function.update_same, hsroot]⟩
        · exact Or.inl (by simp only [ht', Function.update_noteq hki])
      have hw' : WfH n t'.head := wfH_rewire hws hrewu
      have hiffu : ∀ k r, Reach s.2.head k r ↔ Reach t'.head k r :=
        reach_rewire hrewu hws.2.2
      have hiff : ∀ k r, Reach t.head k r ↔ Reach t'.head k r := fun k r =>
        (hiffs k r).trans (hiffu k r)
      have hrootD : ∀ j, rootD t'.head n j = rootD t.head n j := fun j =>
        rootD_eq_of_reach hw' ((hiff j _).mp (rootD_reach hw j))
      have hval : ∀ j, t'.head j = t.head j ∨ t'.head j = rootD t.head n j := by
        intro j
        by_cases hji : j = i
        · subst hji
          exact Or.inr (by simp only [ht', Function.update_same, hsroot])
        · have : t'.head j = s.2.head j := by simp only [ht', Function.update_noteq hji]
          rw [this]
          rcases hrew j with h | ⟨ρ, hρ, h⟩
          · exact Or.inl h
          · exact Or.inr (by rw [h, rootD_eq_of_reach hw hρ])
      obtain ⟨ihw, ihiff, ihproc, ihval, ihconn⟩ := ih (i + 1) t' hw'
      have hfold : finalize fc n t i (c + 1) = finalize fc n t' (i + 1) c := by
        rw [finalize, ← hs, ← ht']
      rw [hfold]
      refine ⟨ihw, ?_, ?_, ?_, by rw [ihconn]; rfl⟩
      · intro k r
        exact (hiff k r).trans (ihiff k r)
      · intro j h1 h2
        by_cases hji : j = i
        · subst hji
          rcases ihval j with h | h
          · rw [h]
            simp only [ht', Function.update_same, hsroot]
          · rw [h, hrootD]
        · have h1' : i + 1 ≤ j := by omega
          rw [ihproc j h1' (by omega), hrootD]
      · intro j
        rcases ihval j with h | h
        · rcases hval j with h2 | h2
          · exact Or.inl (h.trans h2)
          · exact Or.inr (h.trans h2)
        · exact Or.inr (by rw [h, hrootD])

/-- Top-level effect of the finalization pass with fuel and count `n`,
starting at 0: every in-range entry is flattened to its root, out-of-range
entries stay identity, and the partition is unchanged. -/
lemma finalize_run {n : ℕ} (fc : Bool) (t : Trav) (hw : WfH n t.head) :
    WfH n (finalize fc n t 0 n).head ∧
    (∀ j, j < n → (finalize fc n t 0 n).head j = rootD t.head n j) ∧
    (∀ j, n ≤ j → (finalize fc n t 0 n).head j = j) ∧
    (∀ k r, Reach t.head k r ↔ Reach (finalize fc n t 0 n).head k r) ∧
    (finalize fc n t 0 n).connected = t.connected := by
  obtain ⟨hwf, hiff, hproc, hval, hconn⟩ := finalize_spec fc n 0 t hw
  exact ⟨hwf, fun j hj => hproc j (Nat.zero_le j) (by omega), hwf.2.1, hiff, hconn⟩

/-! ### The internal-connectivity prepass -/

lemma sq_le_of_mem {α : Type} [LinearOrderedCommRing α] {lo hi a b : α} (h1 : lo ≤ a)
    (h2 : a ≤ hi) (h3 : lo ≤ b) (h4 : b ≤ hi) :
    (a - b) * (a - b) ≤ (hi - lo) * (hi - lo) := by
  nlinarith

/-- Two points inside a bounding box are no farther apart (squared) than
the box's squared diagonal. -/
lemma dist2_le_maxdist2 {α : Type} [LinearOrderedCommRing α] {b : Box α} {p q : Pt α}
    (hp : inBox b p) (hq : inBox b q) : dist2 p q ≤ kd_node_maxdist2 b := by
  obtain ⟨hp1, hp2, hp3, hp4, hp5, hp6⟩ := hp
  obtain ⟨hq1, hq2, hq3, hq4, hq5, hq6⟩ := hq
  unfold dist2 kd_node_maxdist2
  have hx := sq_le_of_mem hp1 hp2 hq1 hq2
  have hy := sq_le_of_mem hp3 hp4 hq3 hq4
  have hz := sq_le_of_mem hp5 hp6 hq5 hq6
  have h1 := add_le_add hx hy
  exact add_le_add h1 hz

/-- Specification of the direct-assignment loop of `connect`: assigning
every point of the (pairwise fresh, self-rooted) index range onto the
representative `r` preserves well-formedness and soundness, touches no
other entry, merges the whole range with `r`, and preserves existing
merges. -/
lemma assignRange_spec {α : Type} [LinearOrderedCommRing α] {n : ℕ} {pos : ℕ → Pt α}
    {ll2 : α} (ind : ℕ → ℕ) (r : ℕ) :
    ∀ (c s : ℕ) (head : ℕ → ℕ),
      WfH n head → Sound n pos ll2 head →
      head r = r → r < n →
      (∀ m, s ≤ m → m < s + c → head (ind m) = ind m ∧ ind m < n ∧ ind m ≠ r ∧
        dist2 (pos (ind m)) (pos r) ≤ ll2) →
      (∀ m m', s ≤ m → m < s + c → s ≤ m' → m' < s + c → ind m = ind m' → m = m') →
      WfH n (assignRange ind r head s c) ∧
      Sound n pos ll2 (assignRange ind r head s c) ∧
      (∀ kk, (∀ m, s ≤ m → m < s + c → kk ≠ ind m) →
        assignRange ind r head s c kk = head kk) ∧
      (∀ m, s ≤ m → m < s + c → SameRoot (assignRange ind r head s c) (ind m) r) ∧
      (∀ a b, SameRoot head a b → SameRoot (assignRange ind r head s c) a b) := by
  intro c
  induction c with
  | zero =>
      intro s head hw hs hr hrn _ _
      refine ⟨hw, hs, fun kk _ => rfl, ?_, fun a b h => h⟩
      intro m h1 h2
      omega
  | succ c ih =>
      intro s head hw hs hr hrn hfresh hinj
      obtain ⟨hsh, hsn, hsr, hsd⟩ := hfresh s (le_refl s) (by omega)
      set head1 := Function.update head (ind s) r with hh1
      have hw1 : WfH n head1 := wfH_link hw hsh hr hsn hrn
      have hr1 : head1 r = r := by
        rw [hh1, Function.update_noteq (fun h => hsr h.symm), hr]
      have hs1 : Sound n pos ll2 head1 := by
        refine sound_link hw hs hsh hr (reach_self hr) (reach_self hsh) ?_ hrn hsn
        exact chain_single ⟨hrn, hsn, by rw [dist2_comm]; exact hsd⟩
      have hfresh1 : ∀ m, s + 1 ≤ m → m < s + 1 + c → head1 (ind m) = ind m ∧
          ind m < n ∧ ind m ≠ r ∧ dist2 (pos (ind m)) (pos r) ≤ ll2 := by
        intro m h1 h2
        obtain ⟨ha, hb, hc, hd⟩ := hfresh m (by omega) (by omega)
        refine ⟨?_, hb, hc, hd⟩
        rw [hh1, Function.update_noteq, ha]
        intro h
        have := hinj m s (by omega) (by omega) (le_refl s) (by omega) h
        omega
      have hinj1 : ∀ m m', s + 1 ≤ m → m < s + 1 + c → s + 1 ≤ m' → m' < s + 1 + c →
          ind m = ind m' → m = m' := by
        intro m m' h1 h2 h3 h4 h
        exact hinj m m' (by omega) (by omega) (by omega) (by omega) h
      obtain ⟨ihw, ihs, ihout, ihmerge, ihmono⟩ := ih (s + 1) head1 hw1 hs1 hr1 hrn hfresh1 hinj1
      have hfold : assignRange ind r head s (c + 1) = assignRange ind r head1 (s + 1) c := by
        rw [assignRange, hh1]
      rw [hfold]
      refine ⟨ihw, ihs, ?_, ?_, ?_⟩
      · intro kk hkk
        rw [ihout kk (fun m h1 h2 => hkk m (by omega) (by omega)), hh1,
          Function.update_noteq (hkk s (le_refl s) (by omega))]
      · intro m h1 h2
        by_cases hms : m = s
        · subst hms
          have hmerge1 : SameRoot head1 (ind m) r := by
            refine ⟨r, ?_, reach_self hr1⟩
            exact reach_step (by rw [hh1, Function.update_same]) (reach_self hr1)
          exact ihmono _ _ hmerge1
        · exact ihmerge m (by omega) (by omega)
      · intro a b h
        exact ihmono a b (sameRoot_link_mono hsh hr h)

/-- Index ranges `(start, size)` of the nodes marked internally connected
by the prepass. -/
def markedRanges {α : Type} : CNode α → List (ℕ × ℕ)
  | CNode.leaf s z _ c => if c then [(s, z)] else []
  | CNode.split s z _ c l r => (if c then [(s, z)] else []) ++ markedRanges l ++ markedRanges r

/-- Number of nodes marked internally connected by the prepass. -/
def countMarked {α : Type} : CNode α → ℕ
  | CNode.leaf _ _ _ c => if c then 1 else 0
  | CNode.split _ _ _ c l r => (if c then 1 else 0) + countMarked l + countMarked r

/-- Specification of the per-node body of `connect`. -/
lemma connectStep_spec {α : Type} [LinearOrderedCommRing α] {n : ℕ} {pos : ℕ → Pt α}
    {ll2 : α} (ind : ℕ → ℕ)
    (hind : ∀ k, k < n → ind k < n)
    (hinj : ∀ a b, a < n → b < n → ind a = ind b → a = b)
    (t : Trav) (s z : ℕ) (b : Box α) (pc : Bool)
    (hzn : s + z ≤ n)
    (hbox : ∀ k, k < z → inBox b (pos (ind (s + k))))
    (hw : WfH n t.head) (hs : Sound n pos ll2 t.head)
    (hpc : pc = true → ∀ a c, s ≤ a → a < s + z → s ≤ c → c < s + z →
      SameRoot t.head (ind a) (ind c))
    (hun : pc = false → ∀ k, s ≤ k → k < s + z → t.head (ind k) = ind k) :
    WfH n (connectStep ll2 ind t s z b pc).1.head ∧
    Sound n pos ll2 (connectStep ll2 ind t s z b pc).1.head ∧
    (∀ kk, (∀ m, s ≤ m → m < s + z → kk ≠ ind m) →
      (connectStep ll2 ind t s z b pc).1.head kk = t.head kk) ∧
    (∀ a c, SameRoot t.head a c → SameRoot (connectStep ll2 ind t s z b pc).1.head a c) ∧
    ((connectStep ll2 ind t s z b pc).2 = true → ∀ a c, s ≤ a → a < s + z → s ≤ c →
      c < s + z → SameRoot (connectStep ll2 ind t s z b pc).1.head (ind a) (ind c)) ∧
    ((connectStep ll2 ind t s z b pc).2 = false →
      (connectStep ll2 ind t s z b pc).1 = t ∧ pc = false) ∧
    (connectStep ll2 ind t s z b pc).1.connected =
      t.connected + (if (connectStep ll2 ind t s z b pc).2 then 1 else 0) ∧
    (connectStep ll2 ind t s z b pc).1.visited = t.visited := by
  have hboxm : ∀ m, s ≤ m → m < s + z → inBox b (pos (ind m)) := by
    intro m h1 h2
    have := hbox (m - s) (by omega)
    rwa [show s + (m - s) = m by omega] at this
  by_cases hpcc : pc = true
  · subst hpcc
    rw [connectStep, if_pos rfl]
    refine ⟨hw, hs, fun kk _ => rfl, fun a c h => h, ?_, by simp, by simp, rfl⟩
    intro _ a c h1 h2 h3 h4
    exact hpc rfl a c h1 h2 h3 h4
  · have hpcf : pc = false := by
      cases pc
      · rfl
      · exact absurd rfl hpcc
    subst hpcf
    rw [connectStep, if_neg (by simp)]
    by_cases hqual : kd_node_maxdist2 b ≤ ll2
    · rw [if_pos hqual]
      rcases Nat.eq_zero_or_pos z with hz0 | hzpos
      · subst hz0
        have hempty : assignRange ind (ind s) t.head (s + 1) (0 - 1) = t.head := rfl
        refine ⟨by rw [hempty]; exact hw, by rw [hempty]; exact hs, fun kk _ => by rw [hempty],
          fun a c h => by rw [hempty]; exact h, ?_, by simp, by simp, rfl⟩
        intro _ a c h1 h2
        omega
      · have hsn : s < n := by omega
        have hinds : ind s < n := hind s hsn
        have hsh : t.head (ind s) = ind s := hun rfl s (le_refl s) (by omega)
        have hfresh : ∀ m, s + 1 ≤ m → m < s + 1 + (z - 1) → t.head (ind m) = ind m ∧
            ind m < n ∧ ind m ≠ ind s ∧ dist2 (pos (ind m)) (pos (ind s)) ≤ ll2 := by
          intro m h1 h2
          have hmn : m < n := by omega
          refine ⟨hun rfl m (by omega) (by omega), hind m hmn, ?_, ?_⟩
          · intro h
            have := hinj m s hmn hsn h
            omega
          · exact le_trans (dist2_le_maxdist2 (hboxm m (by omega) (by omega))
              (hboxm s (le_refl s) (by omega))) hqual
        have hinj1 : ∀ m m', s + 1 ≤ m → m < s + 1 + (z - 1) → s + 1 ≤ m' →
            m' < s + 1 + (z - 1) → ind m = ind m' → m = m' := by
          intro m m' h1 h2 h3 h4 h
          exact hinj m m' (by omega) (by omega) h
        obtain ⟨ihw, ihs, ihout, ihmerge, ihmono⟩ :=
          assignRange_spec ind (ind s) (z - 1) (s + 1) t.head hw hs hsh hinds hfresh hinj1
        have hmergeAll : ∀ a, s ≤ a → a < s + z →
            SameRoot (assignRange ind (ind s) t.head (s + 1) (z - 1)) (ind a) (ind s) := by
          intro a h1 h2
          by_cases has : a = s
          · subst has
            exact sameRoot_refl ihw (ind a)
          · exact ihmerge a (by omega) (by omega)
        refine ⟨ihw, ihs, ?_, ihmono, ?_, by simp, by simp, rfl⟩
        · intro kk hkk
          exact ihout kk (fun m h1 h2 => hkk m (by omega) (by omega))
        · intro _ a c h1 h2 h3 h4
          exact sameRoot_trans (hmergeAll a h1 h2) (sameRoot_symm (hmergeAll c h3 h4))
    · rw [if_neg hqual]
      exact ⟨hw, hs, fun kk _ => rfl, fun a c h => h, by simp, fun _ => ⟨rfl, rfl⟩,
        by simp, rfl⟩

/-- Master specification of the `connect` prepass: it preserves
well-formedness and soundness, touches only entries of the node's index
range, preserves existing merges, merges the whole range of every node it
marks, counts exactly the marked nodes in `connected`, and leaves
`visited` alone. -/
lemma connect_spec {α : Type} [LinearOrderedCommRing α] {n : ℕ} {pos : ℕ → Pt α}
    {ll2 : α} (ind : ℕ → ℕ)
    (hind : ∀ k, k < n → ind k < n)
    (hinj : ∀ a b, a < n → b < n → ind a = ind b → a = b) :
    ∀ (nd : KDNode α), TreeWF ind pos nd →
    ∀ (t : Trav) (pc : Bool),
      nstart nd + nsize nd ≤ n →
      WfH n t.head → Sound n pos ll2 t.head →
      (pc = true → ∀ a c, nstart nd ≤ a → a < nstart nd + nsize nd →
        nstart nd ≤ c → c < nstart nd + nsize nd → SameRoot t.head (ind a) (ind c)) →
      (pc = false → ∀ k, nstart nd ≤ k → k < nstart nd + nsize nd →
        t.head (ind k) = ind k) →
      WfH n (connect ll2 ind t nd pc).1.head ∧
      Sound n pos ll2 (connect ll2 ind t nd pc).1.head ∧
      (∀ kk, (∀ m, nstart nd ≤ m → m < nstart nd + nsize nd → kk ≠ ind m) →
        (connect ll2 ind t nd pc).1.head kk = t.head kk) ∧
      (∀ a c, SameRoot t.head a c → SameRoot (connect ll2 ind t nd pc).1.head a c) ∧
      (∀ sz ∈ markedRanges (connect ll2 ind t nd pc).2,
        ∀ a c, sz.1 ≤ a → a < sz.1 + sz.2 → sz.1 ≤ c → c < sz.1 + sz.2 →
          SameRoot (connect ll2 ind t nd pc).1.head (ind a) (ind c)) ∧
      (connect ll2 ind t nd pc).1.connected =
        t.connected + countMarked (connect ll2 ind t nd pc).2 ∧
      (connect ll2 ind t nd pc).1.visited = t.visited ∧
      (∀ sz ∈ markedRanges (connect ll2 ind t nd pc).2,
        nstart nd ≤ sz.1 ∧ sz.1 + sz.2 ≤ nstart nd + nsize nd) := by
  intro nd
  induction nd with
  | leaf s z b =>
      intro htree t pc hzn hw hs hpc hun
      rw [nstart, nsize] at hzn hpc hun
      obtain ⟨shw, shs, shout, shmono, shmark, shfalse, shconn, shvis⟩ :=
        connectStep_spec ind hind hinj t s z b pc hzn htree hw hs hpc hun
      have hres : connect ll2 ind t (KDNode.leaf s z b) pc =
          ((connectStep ll2 ind t s z b pc).1,
            CNode.leaf s z b (connectStep ll2 ind t s z b pc).2) := rfl
      rw [hres]
      refine ⟨shw, shs, shout, shmono, ?_, ?_, shvis, ?_⟩
      · intro sz hsz a c h1 h2 h3 h4
        by_cases hflag : (connectStep ll2 ind t s z b pc).2 = true
        · rw [markedRanges, if_pos hflag] at hsz
          simp only [List.mem_singleton] at hsz
          subst hsz
          exact shmark hflag a c h1 h2 h3 h4
        · rw [markedRanges, if_neg hflag] at hsz
          simp at hsz
      · rw [countMarked]
        exact shconn
      · intro sz hsz
        by_cases hflag : (connectStep ll2 ind t s z b pc).2 = true
        · rw [markedRanges, if_pos hflag] at hsz
          simp only [List.mem_singleton] at hsz
          subst hsz
          simp [nstart, nsize]
        · rw [markedRanges, if_neg hflag] at hsz
          simp at hsz
  | split s z b l r ihl ihr =>
      intro htree t pc hzn hw hs hpc hun
      obtain ⟨hbox, hls, hrs, hlr, htl, htr⟩ := htree
      rw [nstart, nsize] at hzn hpc hun
      obtain ⟨shw, shs, shout, shmono, shmark, shfalse, shconn, shvis⟩ :=
        connectStep_spec ind hind hinj t s z b pc hzn hbox hw hs hpc hun
      set u := connectStep ll2 ind t s z b pc with hu
      -- bounds of the children inside the parent range
      have hlb : nstart l = s := hls
      have hrb : nstart r = s + nsize l := hrs
      have hlz : nsize l + nsize r = z := hlr
      have hlrange : nstart l + nsize l ≤ n := by omega
      have hrrange : nstart r + nsize r ≤ n := by omega
      -- preconditions of the left child
      have hlpc : u.2 = true → ∀ a c, nstart l ≤ a → a < nstart l + nsize l →
          nstart l ≤ c → c < nstart l + nsize l → SameRoot u.1.head (ind a) (ind c) := by
        intro hf a c h1 h2 h3 h4
        exact shmark hf a c (by omega) (by omega) (by omega) (by omega)
      have hlun : u.2 = false → ∀ k, nstart l ≤ k → k < nstart l + nsize l →
          u.1.head (ind k) = ind k := by
        intro hf k h1 h2
        obtain ⟨hueq, hpcf⟩ := shfalse hf
        rw [hueq]
        exact hun hpcf k (by omega) (by omega)
      obtain ⟨lhw, lhs, lhout, lhmono, lhmark, lhconn, lhvis, lhbound⟩ :=
        ihl htl u.1 u.2 hlrange shw shs hlpc hlun
      set ul := connect ll2 ind u.1 l u.2 with hul
      -- preconditions of the right child
      have hdisj : ∀ m m', nstart r ≤ m → m < nstart r + nsize r → nstart l ≤ m' →
          m' < nstart l + nsize l → ind m ≠ ind m' := by
        intro m m' h1 h2 h3 h4 h
        have := hinj m m' (by omega) (by omega) h
        omega
      have hrpc : u.2 = true → ∀ a c, nstart r ≤ a → a < nstart r + nsize r →
          nstart r ≤ c → c < nstart r + nsize r → SameRoot ul.1.head (ind a) (ind c) := by
        intro hf a c h1 h2 h3 h4
        exact lhmono _ _ (shmark hf a c (by omega) (by omega) (by omega) (by omega))
      have hrun : u.2 = false → ∀ k, nstart r ≤ k → k < nstart r + nsize r →
          ul.1.head (ind k) = ind k := by
        intro hf k h1 h2
        obtain ⟨hueq, hpcf⟩ := shfalse hf
        rw [lhout (ind k) (fun m h1' h2' => hdisj k m h1 h2 h1' h2'), hueq]
        exact hun hpcf k (by omega) (by omega)
      obtain ⟨rhw, rhs, rhout, rhmono, rhmark, rhconn, rhvis, rhbound⟩ :=
        ihr htr ul.1 u.2 hrrange lhw lhs hrpc hrun
      set ur := connect ll2 ind ul.1 r u.2 with hur
      have hres : connect ll2 ind t (KDNode.split s z b l r) pc =
          (ur.1, CNode.split s z b u.2 ul.2 ur.2) := by
        rw [connect]
      rw [hres]
      refine ⟨rhw, rhs, ?_, ?_, ?_, ?_, by rw [rhvis, lhvis, shvis], ?_⟩
      · -- untouched outside the parent range
        intro kk hkk
        simp only [nstart, nsize] at hkk
        rw [rhout kk (fun m h1 h2 => hkk m (by omega) (by omega)),
          lhout kk (fun m h1 h2 => hkk m (by omega) (by omega)),
          shout kk (fun m h1 h2 => hkk m h1 h2)]
      · intro a c h
        exact rhmono _ _ (lhmono _ _ (shmono _ _ h))
      · -- marked ranges of the annotated split node
        intro sz hsz a c h1 h2 h3 h4
        rw [markedRanges, List.mem_append, List.mem_append] at hsz
        rcases hsz with (hsz | hsz) | hsz
        · by_cases hflag : u.2 = true
          · rw [if_pos hflag] at hsz
            simp only [List.mem_singleton] at hsz
            subst hsz
            exact rhmono _ _ (lhmono _ _ (shmark hflag a c h1 h2 h3 h4))
          · rw [if_neg hflag] at hsz
            simp at hsz
        · exact rhmono _ _ (lhmark sz hsz a c h1 h2 h3 h4)
        · exact rhmark sz hsz a c h1 h2 h3 h4
      · rw [countMarked, rhconn, lhconn, shconn]
        cases u.2 <;> simp <;> omega
      · intro sz hsz
        simp only [nstart, nsize]
        rw [markedRanges, List.mem_append, List.mem_append] at hsz
        rcases hsz with (hsz | hsz) | hsz
        · by_cases hflag : u.2 = true
          · rw [if_pos hflag] at hsz
            simp only [List.mem_singleton] at hsz
            subst hsz
            omega
          · rw [if_neg hflag] at hsz
            simp at hsz
        · have := lhbound sz hsz
          omega
        · have := rhbound sz hsz
          omega

/-! ### Whole-run facts -/

lemma wfH_id {n : ℕ} : WfH n (id : ℕ → ℕ) :=
  ⟨fun _ hi => hi, fun _ _ => rfl, fun i => ⟨i, rfl, 0, rfl⟩⟩

lemma reach_id {i r : ℕ} (h : Reach (id : ℕ → ℕ) i r) : i = r := by
  obtain ⟨_, k, hk⟩ := h
  rwa [Function.iterate_id, id_eq] at hk

lemma sound_id {α : Type} [LinearOrderedCommRing α] {n : ℕ} {pos : ℕ → Pt α} {ll2 : α} :
    Sound n pos ll2 (id : ℕ → ℕ) := by
  intro a b _ _ h
  obtain ⟨r, h1, h2⟩ := h
  have : a = b := (reach_id h1).trans (reach_id h2).symm
  rw [this]
  exact Relation.ReflTransGen.refl

/-- On a fully flattened state (every entry already holds its root), a
splay returns the stored entry and changes nothing. -/
lemma splay_flat {n : ℕ} (fc : Bool) (t : Trav)
    (hflat : ∀ j, t.head (t.head j) = t.head j)
    (hout : ∀ j, n ≤ j → t.head j = j) (i : ℕ) :
    (splay fc t n i).1 = t.head i ∧ ∀ kk, (splay fc t n i).2.head kk = t.head kk := by
  by_cases hri : t.head i = i
  · have hroot : rootD t.head n i = i := findLoop_eq hri n i 0 rfl (Nat.zero_le n)
    have hpath : pathList t.head n i = [] := by
      cases n with
      | zero => rfl
      | succ m => rw [pathList, if_pos hri]
    refine ⟨by rw [splay_root, hroot, hri], ?_⟩
    intro kk
    cases fc with
    | true =>
        have heq : (splay true t n i).2.head = compress t.head n i (rootD t.head n i) := rfl
        rw [heq, compress_char n t.head i 0 (by rw [Function.iterate_zero, id_eq, hroot])
          (by rw [hroot]; exact hri) (Nat.zero_le n) kk, hpath]
        simp
    | false =>
        have heq : (splay false t n i).2.head =
          Function.update t.head i (rootD t.head n i) := rfl
        rw [heq, hroot]
        by_cases hkk : kk = i
        · subst hkk
          rw [Function.update_same, hri]
        · rw [Function.update_noteq hkk]
  · have hin : i < n := by
      by_contra h
      exact hri (hout i (by omega))
    have hn1 : 1 ≤ n := by omega
    have hroot_r : t.head (t.head i) = t.head i := hflat i
    have hm1 : t.head^[1] i = t.head i := Function.iterate_one t.head ▸ rfl
    have hrootD : rootD t.head n i = t.head i := findLoop_eq hroot_r n i 1 hm1 hn1
    have hpath : pathList t.head n i = [i] := by
      obtain ⟨m, rfl⟩ : ∃ m, n = m + 1 := ⟨n - 1, by omega⟩
      rw [pathList, if_neg hri]
      congr 1
      cases m with
      | zero => rfl
      | succ m' => rw [pathList, if_pos hroot_r]
    refine ⟨by rw [splay_root, hrootD], ?_⟩
    intro kk
    cases fc with
    | true =>
        have heq : (splay true t n i).2.head = compress t.head n i (rootD t.head n i) := rfl
        rw [heq, hrootD, compress_char n t.head i 1 hm1 hroot_r hn1 kk, hpath]
        by_cases hkk : kk = i
        · subst hkk
          simp
        · simp [hkk]
    | false =>
        have heq : (splay false t n i).2.head =
          Function.update t.head i (rootD t.head n i) := rfl
        rw [heq, hrootD]
        by_cases hkk : kk = i
        · subst hkk
          rw [Function.update_same]
        · rw [Function.update_noteq hkk]

/-- Master specification of one completed run: invariants, the flattening
of the output array, idempotence of a subsequent splay, label soundness,
the merging of every delivered edge, the merging of every marked node's
range, the `connected` counter, and well-formedness at every intermediate
stage. -/
lemma kd_fof_run_spec {α : Type} [LinearOrderedCommRing α] (fc : Bool) (nd : KDNode α)
    (ind : ℕ → ℕ) (pos : ℕ → Pt α) (ll : α) (edges : List (ℕ × ℕ))
    (htree : TreeWF ind pos nd) (hstart : nstart nd = 0)
    (hind : ∀ k, k < nsize nd → ind k < nsize nd)
    (hinj : ∀ a, a < nsize nd → ∀ b, b < nsize nd → ind a = ind b → a = b)
    (hedge : ∀ pr ∈ edges, pr.1 < nsize nd ∧ pr.2 < nsize nd ∧
      dist2 (pos pr.1) (pos pr.2) ≤ ll * ll) :
    WfH (nsize nd) (kd_fof_run fc nd ind ll edges).1.head ∧
    (∀ j, (kd_fof_run fc nd ind ll edges).1.head ((kd_fof_run fc nd ind ll edges).1.head j) =
      (kd_fof_run fc nd ind ll edges).1.head j) ∧
    (∀ i, (splay fc (kd_fof_run fc nd ind ll edges).1 (nsize nd) i).1 =
        (kd_fof_run fc nd ind ll edges).1.head i ∧
      ∀ kk, (splay fc (kd_fof_run fc nd ind ll edges).1 (nsize nd) i).2.head kk =
        (kd_fof_run fc nd ind ll edges).1.head kk) ∧
    (∀ i j, i < nsize nd → j < nsize nd →
      (kd_fof_run fc nd ind ll edges).1.head i = (kd_fof_run fc nd ind ll edges).1.head j →
      Chain (nsize nd) pos (ll * ll) i j) ∧
    (∀ pr ∈ edges, (kd_fof_run fc nd ind ll edges).1.head pr.1 =
      (kd_fof_run fc nd ind ll edges).1.head pr.2) ∧
    (∀ sz ∈ markedRanges (kd_fof_run fc nd ind ll edges).2, ∀ a c, sz.1 ≤ a →
      a < sz.1 + sz.2 → sz.1 ≤ c → c < sz.1 + sz.2 →
      (kd_fof_run fc nd ind ll edges).1.head (ind a) =
        (kd_fof_run fc nd ind ll edges).1.head (ind c)) ∧
    ((kd_fof_run fc nd ind ll edges).1.connected =
      countMarked (kd_fof_run fc nd ind ll edges).2) ∧
    WfH (nsize nd) (connect (ll * ll) ind initTrav nd false).1.head ∧
    (∀ k, WfH (nsize nd) ((List.take k edges).foldl
      (fun s pr => kd_fof_visit_edge fc (nsize nd) s pr)
      (connect (ll * ll) ind initTrav nd false).1).head) := by
  set n := nsize nd with hn
  set c1 := connect (ll * ll) ind initTrav nd false with hc1
  set t2 := edges.foldl (fun t pr => kd_fof_visit_edge fc n t pr) c1.1 with ht2
  set t3 := finalize fc n t2 0 n with ht3
  have hrun : kd_fof_run fc nd ind ll edges = (t3, c1.2) := rfl
  have hwid : WfH n (initTrav.head) := wfH_id
  have hsid : Sound n pos (ll * ll) (initTrav.head) := sound_id
  obtain ⟨chw, chs, chout, chmono, chmark, chconn, chvis, chbound⟩ :=
    connect_spec ind hind (fun a b ha hb => hinj a ha b hb) nd htree initTrav false (by rw [hstart]; omega) hwid hsid
      (by intro h; exact absurd h (by simp)) (fun _ k _ _ => rfl)
  obtain ⟨fhw, fhs, fhmono, fhall, fhconn⟩ :=
    foldEdges_spec fc edges c1.1 chw chs hedge
  obtain ⟨ffw, fflat, ffout, ffiff, ffconn⟩ := finalize_run fc t2 fhw
  rw [hrun]
  have hflat : ∀ j, t3.head (t3.head j) = t3.head j := by
    intro j
    rcases Nat.lt_or_ge j n with hj | hj
    · rw [fflat j hj]
      have hrr : t2.head (rootD t2.head n j) = rootD t2.head n j := (rootD_reach fhw j).1
      rw [fflat _ (rootD_lt fhw hj), rootD_eq_of_reach fhw (reach_self hrr)]
    · rw [ffout j hj, ffout j hj]
  have hlabel : ∀ i j, i < n → j < n → (t3.head i = t3.head j ↔
      rootD t2.head n i = rootD t2.head n j) := by
    intro i j hi hj
    rw [fflat i hi, fflat j hj]
  refine ⟨ffw, hflat, ?_, ?_, ?_, ?_, ?_, chw, ?_⟩
  · intro i
    exact splay_flat fc t3 hflat ffout i
  · intro i j hi hj h
    rw [hlabel i j hi hj] at h
    exact fhs i j hi hj ((sameRoot_iff_rootD fhw i j).mpr h)
  · intro pr hpr
    obtain ⟨h1, h2, _⟩ := hedge pr hpr
    rw [hlabel pr.1 pr.2 h1 h2]
    exact (sameRoot_iff_rootD fhw pr.1 pr.2).mp (fhall pr hpr)
  · intro sz hsz a c h1 h2 h3 h4
    obtain ⟨hb1, hb2⟩ := chbound sz hsz
    rw [hstart] at hb1 hb2
    have han : a < n := by omega
    have hcn : c < n := by omega
    rw [hlabel (ind a) (ind c) (hind a han) (hind c hcn)]
    exact (sameRoot_iff_rootD fhw (ind a) (ind c)).mp
      (fhmono _ _ (chmark sz hsz a c h1 h2 h3 h4))
  · rw [ffconn, fhconn, chconn, ← hc1]
    show 0 + countMarked c1.2 = countMarked (t3, c1.2).2
    rw [Nat.zero_add]
  · intro k
    obtain ⟨hwk, _, _, _, _⟩ := foldEdges_spec fc (edges.take k) c1.1 chw chs
      (fun pr hpr => hedge pr (List.take_subset k edges hpr))
    exact hwk

/-- The two compression builds deliver identical final label arrays: the
prepass is shared, the edge phase is a bisimulation (same merges), and the
finalization writes each point's root in both builds. -/
lemma kd_fof_run_bisim {α : Type} [LinearOrderedCommRing α] (nd : KDNode α)
    (ind : ℕ → ℕ) (pos : ℕ → Pt α) (ll : α) (edges : List (ℕ × ℕ))
    (htree : TreeWF ind pos nd) (hstart : nstart nd = 0)
    (hind : ∀ k, k < nsize nd → ind k < nsize nd)
    (hinj : ∀ a, a < nsize nd → ∀ b, b < nsize nd → ind a = ind b → a = b)
    (hedge : ∀ pr ∈ edges, pr.1 < nsize nd ∧ pr.2 < nsize nd) :
    ∀ kk, (kd_fof_run true nd ind ll edges).1.head kk =
      (kd_fof_run false nd ind ll edges).1.head kk := by
  set n := nsize nd with hn
  set c1 := connect (ll * ll) ind initTrav nd false with hc1
  have hwid : WfH n (initTrav.head) := wfH_id
  have hsid : Sound n pos (ll * ll) (initTrav.head) := sound_id
  obtain ⟨chw, _, _, _, _, _, _, _⟩ :=
    connect_spec ind hind (fun a b ha hb => hinj a ha b hb) nd htree initTrav false (by rw [hstart]; omega) hwid hsid
      (by intro h; exact absurd h (by simp)) (fun _ k _ _ => rfl)
  obtain ⟨hws, hwu, hiff⟩ := foldEdges_bisim edges c1.1 c1.1 chw chw
    (fun k r => Iff.rfl) hedge
  set t2s := edges.foldl (fun s pr => kd_fof_visit_edge true n s pr) c1.1 with ht2s
  set t2u := edges.foldl (fun s pr => kd_fof_visit_edge false n s pr) c1.1 with ht2u
  obtain ⟨_, fflats, ffouts, _, _⟩ := finalize_run true t2s hws
  obtain ⟨_, fflatu, ffoutu, _, _⟩ := finalize_run false t2u hwu
  have hruns : kd_fof_run true nd ind ll edges = (finalize true n t2s 0 n, c1.2) := rfl
  have hrunu : kd_fof_run false nd ind ll edges = (finalize false n t2u 0 n, c1.2) := rfl
  intro kk
  rw [hruns, hrunu]
  rcases Nat.lt_or_ge kk n with hkk | hkk
  · rw [fflats kk hkk, fflatu kk hkk]
    exact (rootD_eq_of_reach hwu ((hiff kk _).mp (rootD_reach hws kk))).symm
  · rw [ffouts kk hkk, ffoutu kk hkk]

/-! ### Distance positivity -/

lemma dist2_nonneg {α : Type} [LinearOrderedCommRing α] (p q : Pt α) : 0 ≤ dist2 p q := by
  unfold dist2
  have h1 := mul_self_nonneg (p.x - q.x)
  have h2 := mul_self_nonneg (p.y - q.y)
  have h3 := mul_self_nonneg (p.z - q.z)
  linarith

lemma eq_of_dist2_nonpos {α : Type} [LinearOrderedCommRing α] {p q : Pt α}
    (h : dist2 p q ≤ 0) : p = q := by
  obtain ⟨px, py, pz⟩ := p
  obtain ⟨qx, qy, qz⟩ := q
  unfold dist2 at h
  simp only at h
  have h1 := mul_self_nonneg (px - qx)
  have h2 := mul_self_nonneg (py - qy)
  have h3 := mul_self_nonneg (pz - qz)
  have hx : px = qx := by
    have h0 : (px - qx) * (px - qx) = 0 := le_antisymm (by linarith) h1
    have := mul_self_eq_zero.mp h0
    linarith
  have hy : py = qy := by
    have h0 : (py - qy) * (py - qy) = 0 := le_antisymm (by linarith) h2
    have := mul_self_eq_zero.mp h0
    linarith
  have hz : pz = qz := by
    have h0 : (pz - qz) * (pz - qz) = 0 := le_antisymm (by linarith) h3
    have := mul_self_eq_zero.mp h0
    linarith
  simp [hx, hy, hz]

/-! ### Concrete instances -/

instance instDecidableBallPair (n m : ℕ) (P : ℕ → ℕ → Prop) [∀ p q, Decidable (P p q)] :
    Decidable (∀ p, p < n → ∀ q, q < m → P p q) :=
  decidable_of_iff (∀ p ∈ Finset.range n, ∀ q ∈ Finset.range m, P p q)
    (by simp [Finset.mem_range])

/-- Concrete instance for the witnesses: three colinear points at
x = 0, 1, 2 stored in tree order, kd-tree with a 2-point left leaf and a
1-point right leaf. -/
def wPos : ℕ → Pt ℤ := fun k => ⟨(k : ℤ), 0, 0⟩

/-- Witness kd-tree over the three colinear points. -/
def wTree : KDNode ℤ :=
  KDNode.split 0 3 ⟨0, 0, 0, 2, 0, 0⟩ (KDNode.leaf 0 2 ⟨0, 0, 0, 1, 0, 0⟩)
    (KDNode.leaf 2 1 ⟨2, 0, 0, 2, 0, 0⟩)

/-- Qualifying pairs of the witness instance at linking length 1. -/
def wEdges : List (ℕ × ℕ) := [(0, 1), (1, 2)]

/-- Concrete parent array with one non-root point (1 points at 0). -/
def wHead : ℕ → ℕ := fun k => if k = 1 then 0 else k

/-- Run state holding `wHead`. -/
def wTrav : Trav :=
  { head := wHead, visited := 0, connected := 0, maxdepth := 0, nsplay := 0, totaldepth := 0 }

/-- Counterexample instance: points 0 and 1 coincident at the origin,
point 2 far away at x = 9. -/
def cexPos : ℕ → Pt ℤ := fun k => if k = 2 then ⟨9, 0, 0⟩ else ⟨0, 0, 0⟩

/-- One leaf holding all three points.  Its bounding box spans x ∈ [0, 9],
so at linking length 0 its squared diagonal (81) fails the prepass test
and NO node is marked: the node-pair visitor therefore always takes the
plain `_kd_fof_visit_edge` path (the both-marked branch of
`_kd_fof_check_nodes` is unreachable) and the run completes. -/
def cexTree : KDNode ℤ := KDNode.leaf 0 3 ⟨0, 0, 0, 9, 0, 0⟩

/-- The one qualifying pair of the instance at linking length 0: the two
coincident points. -/
def cexEdges : List (ℕ × ℕ) := [(0, 1)]

/-! ### The claims -/

/-- C1: for every completed run of kd_fof over a point set with a fixed
linking length — the external traversal delivering, per its contract,
every qualifying point pair (in either orientation) and only qualifying
pairs — the output labels satisfy label(i) = label(j) iff there is a chain
i = p0, p1, …, pk = j with dist(p_m, p_{m+1}) ≤ linking_length for every m
(stated with squared distances, as the code compares them). -/
theorem kd_fof_equivalence {α : Type} [LinearOrderedCommRing α] (fc : Bool) (nd : KDNode α)
    (ind : ℕ → ℕ) (pos : ℕ → Pt α) (ll : α) (edges : List (ℕ × ℕ))
    (htree : TreeWF ind pos nd) (hstart : nstart nd = 0)
    (hind : ∀ k, k < nsize nd → ind k < nsize nd)
    (hinj : ∀ a, a < nsize nd → ∀ b, b < nsize nd → ind a = ind b → a = b)
    (hedge : ∀ pr ∈ edges, pr.1 < nsize nd ∧ pr.2 < nsize nd ∧
      dist2 (pos pr.1) (pos pr.2) ≤ ll * ll)
    (hcomplete : ∀ p, p < nsize nd → ∀ q, q < nsize nd → dist2 (pos p) (pos q) ≤ ll * ll →
      (p, q) ∈ edges ∨ (q, p) ∈ edges ∨ p = q)
    (i j : ℕ) (hi : i < nsize nd) (hj : j < nsize nd) :
    (kd_fof_run fc nd ind ll edges).1.head i = (kd_fof_run fc nd ind ll edges).1.head j ↔
      Chain (nsize nd) pos (ll * ll) i j := by
  obtain ⟨hwf, hflat, hsplay, hsoundlab, hedges, hmark, hconn, hcw, hpk⟩ :=
    kd_fof_run_spec fc nd ind pos ll edges htree hstart hind hinj hedge
  constructor
  · exact hsoundlab i j hi hj
  · intro hchain
    clear hj
    induction hchain with
    | refl => rfl
    | tail hprev hstep ih =>
        obtain ⟨hbn, hcn, hd⟩ := hstep
        rcases hcomplete _ hbn _ hcn hd with hmem | hmem | heq
        · exact ih.trans (hedges _ hmem)
        · exact ih.trans (hedges _ hmem).symm
        · rw [← heq]
          exact ih

/-- Witness for C1: the 3-point colinear instance at linking length 1 with
both qualifying pairs delivered; points 0 and 2 get equal labels iff they
are chain-connected. -/
theorem kd_fof_equivalence_witness :
    ((kd_fof_run true wTree id (1 : ℤ) wEdges).1.head 0 =
        (kd_fof_run true wTree id (1 : ℤ) wEdges).1.head 2) ↔
      Chain (nsize wTree) wPos ((1 : ℤ) * 1) 0 2 :=
  kd_fof_equivalence true wTree id wPos 1 wEdges (by decide) (by decide) (by decide)
    (by decide) (by decide) (by decide) 0 2 (by decide) (by decide)

/-- C2: `_kd_fof_visit_edge_first` as written (kd_fof.c lines 120-125)
calls itself unconditionally and never returns: with any amount of fuel
the embedded recursion fails to produce a result, so the callback never
performs a union and never delivers the -1 stop signal.  (The spec and the
C comments describe the intended behavior: link one representative pair,
then stop.) -/
theorem visit_edge_first_diverges :
    ∀ (fuel : ℕ) (t : Trav) (pr : ℕ × ℕ), kd_fof_visit_edge_first fuel t pr = none := by
  intro fuel
  induction fuel with
  | zero => intro t pr; rfl
  | succ fuel ih =>
      intro t pr
      rw [kd_fof_visit_edge_first, ih t pr]

/-- C4 counterexample: two distinct point indices at coincident positions
inside an UNMARKED leaf (the leaf also holds a far-away third point, so
its squared diagonal 81 fails the prepass test at linking length 0), with
a valid tree and a sound and complete delivered pair list.  The first
conjunct records that the prepass marks no node at all, so the node-pair
visitor's both-marked branch — the one that cannot return — is never
taken and this run of the source completes, delivering the pair (0, 1) to
`_kd_fof_visit_edge`.  Both distinct points receive the same label,
refuting "no two distinct points receive equal labels" for arbitrary
point sets. -/
theorem fof_zero_ll_cex :
    markedRanges (kd_fof_run true cexTree id (0 : ℤ) cexEdges).2 = [] ∧
    TreeWF id cexPos cexTree ∧
    (∀ pr ∈ cexEdges, pr.1 < nsize cexTree ∧ pr.2 < nsize cexTree ∧
      dist2 (cexPos pr.1) (cexPos pr.2) ≤ (0 : ℤ) * 0) ∧
    (∀ p, p < nsize cexTree → ∀ q, q < nsize cexTree →
      dist2 (cexPos p) (cexPos q) ≤ (0 : ℤ) * 0 →
      (p, q) ∈ cexEdges ∨ (q, p) ∈ cexEdges ∨ p = q) ∧
    (0 : ℕ) ≠ 1 ∧
    (kd_fof_run true cexTree id (0 : ℤ) cexEdges).1.head 0 =
      (kd_fof_run true cexTree id (0 : ℤ) cexEdges).1.head 1 :=
  ⟨by decide, by decide, by decide, by decide, by decide, by decide⟩

/-- C4 (amended): with linking length 0, over a point set whose positions
are pairwise distinct, a run assigns every point its own singleton
component: equal labels force equal indices. -/
theorem fof_zero_ll_singletons {α : Type} [LinearOrderedCommRing α] (fc : Bool)
    (nd : KDNode α) (ind : ℕ → ℕ) (pos : ℕ → Pt α) (edges : List (ℕ × ℕ))
    (htree : TreeWF ind pos nd) (hstart : nstart nd = 0)
    (hind : ∀ k, k < nsize nd → ind k < nsize nd)
    (hinj : ∀ a, a < nsize nd → ∀ b, b < nsize nd → ind a = ind b → a = b)
    (hedge : ∀ pr ∈ edges, pr.1 < nsize nd ∧ pr.2 < nsize nd ∧
      dist2 (pos pr.1) (pos pr.2) ≤ (0 : α) * 0)
    (hdistinct : ∀ p, p < nsize nd → ∀ q, q < nsize nd → pos p = pos q → p = q)
    (i j : ℕ) (hi : i < nsize nd) (hj : j < nsize nd)
    (h : (kd_fof_run fc nd ind (0 : α) edges).1.head i =
      (kd_fof_run fc nd ind (0 : α) edges).1.head j) :
    i = j := by
  obtain ⟨_, _, _, hsoundlab, _, _, _, _, _⟩ :=
    kd_fof_run_spec fc nd ind pos 0 edges htree hstart hind hinj hedge
  have hchain := hsoundlab i j hi hj h
  clear h hj
  induction hchain with
  | refl => rfl
  | tail hprev hstep ih =>
      rename_i b c
      obtain ⟨hbn, hcn, hd⟩ := hstep
      have hd0 : dist2 (pos b) (pos c) ≤ 0 := by
        rwa [zero_mul] at hd
      rw [ih, hdistinct b hbn c hcn (eq_of_dist2_nonpos hd0)]

/-- Witness for C4 (amended): the 3-point instance has pairwise distinct
positions, and with linking length 0 and no qualifying pairs the theorem
applies (instantiated at i = j = 0). -/
theorem fof_zero_ll_singletons_witness : (0 : ℕ) = 0 :=
  fof_zero_ll_singletons true wTree id wPos [] (by decide) (by decide) (by decide)
    (by decide) (by decide) (by decide) 0 0 (by decide) (by decide) rfl

/-- C5: after the finalization pass of a completed run, every entry of the
head array points directly at its component root (head[head[i]] = head[i]
for every i), and a subsequent splay on any point returns that same root
while changing no entry of the array. -/
theorem fof_finalize_flattened {α : Type} [LinearOrderedCommRing α] (fc : Bool)
    (nd : KDNode α) (ind : ℕ → ℕ) (pos : ℕ → Pt α) (ll : α) (edges : List (ℕ × ℕ))
    (htree : TreeWF ind pos nd) (hstart : nstart nd = 0)
    (hind : ∀ k, k < nsize nd → ind k < nsize nd)
    (hinj : ∀ a, a < nsize nd → ∀ b, b < nsize nd → ind a = ind b → a = b)
    (hedge : ∀ pr ∈ edges, pr.1 < nsize nd ∧ pr.2 < nsize nd ∧
      dist2 (pos pr.1) (pos pr.2) ≤ ll * ll) :
    (∀ j, (kd_fof_run fc nd ind ll edges).1.head
        ((kd_fof_run fc nd ind ll edges).1.head j) =
      (kd_fof_run fc nd ind ll edges).1.head j) ∧
    (∀ i, (splay fc (kd_fof_run fc nd ind ll edges).1 (nsize nd) i).1 =
        (kd_fof_run fc nd ind ll edges).1.head i ∧
      ∀ kk, (splay fc (kd_fof_run fc nd ind ll edges).1 (nsize nd) i).2.head kk =
        (kd_fof_run fc nd ind ll edges).1.head kk) := by
  obtain ⟨_, hflat, hsplay, _, _, _, _, _, _⟩ :=
    kd_fof_run_spec fc nd ind pos ll edges htree hstart hind hinj hedge
  exact ⟨hflat, hsplay⟩

/-- Witness for C5: the flattening and splay-idempotence facts at the
concrete 3-point run, sampled at points 1 (flattening and root) and 0
(array unchanged). -/
theorem fof_finalize_flattened_witness :
    (kd_fof_run true wTree id (1 : ℤ) wEdges).1.head
        ((kd_fof_run true wTree id (1 : ℤ) wEdges).1.head 1) =
      (kd_fof_run true wTree id (1 : ℤ) wEdges).1.head 1 ∧
    (splay true (kd_fof_run true wTree id (1 : ℤ) wEdges).1 (nsize wTree) 1).1 =
      (kd_fof_run true wTree id (1 : ℤ) wEdges).1.head 1 ∧
    (splay true (kd_fof_run true wTree id (1 : ℤ) wEdges).1 (nsize wTree) 1).2.head 0 =
      (kd_fof_run true wTree id (1 : ℤ) wEdges).1.head 0 := by
  have h := fof_finalize_flattened true wTree id wPos 1 wEdges (by decide) (by decide)
    (by decide) (by decide) (by decide)
  exact ⟨h.1 1, (h.2 1).1, (h.2 1).2 0⟩

/-- C6: points under a node the prepass marks internally connected end up
in the same final component; and each union performed by the edge visitor
preserves any already-established same-tree membership. -/
theorem fof_marked_node_soundness {α : Type} [LinearOrderedCommRing α] (fc : Bool)
    (nd : KDNode α) (ind : ℕ → ℕ) (pos : ℕ → Pt α) (ll : α) (edges : List (ℕ × ℕ))
    (htree : TreeWF ind pos nd) (hstart : nstart nd = 0)
    (hind : ∀ k, k < nsize nd → ind k < nsize nd)
    (hinj : ∀ a, a < nsize nd → ∀ b, b < nsize nd → ind a = ind b → a = b)
    (hedge : ∀ pr ∈ edges, pr.1 < nsize nd ∧ pr.2 < nsize nd ∧
      dist2 (pos pr.1) (pos pr.2) ≤ ll * ll)
    (sz : ℕ × ℕ) (hsz : sz ∈ markedRanges (kd_fof_run fc nd ind ll edges).2)
    (a c : ℕ) (h1 : sz.1 ≤ a) (h2 : a < sz.1 + sz.2) (h3 : sz.1 ≤ c)
    (h4 : c < sz.1 + sz.2) :
    (∀ t : Trav, WfH (nsize nd) t.head → ∀ p q, p < nsize nd → q < nsize nd →
      ∀ x y, SameRoot t.head x y →
        SameRoot (kd_fof_visit_edge fc (nsize nd) t (p, q)).head x y) ∧
    (kd_fof_run fc nd ind ll edges).1.head (ind a) =
      (kd_fof_run fc nd ind ll edges).1.head (ind c) := by
  obtain ⟨_, _, _, _, _, hmark, _, _, _⟩ :=
    kd_fof_run_spec fc nd ind pos ll edges htree hstart hind hinj hedge
  refine ⟨?_, hmark sz hsz a c h1 h2 h3 h4⟩
  intro t hw p q hp hq x y hxy
  exact visit_edge_mono fc t hw hp hq hxy

/-- Witness for C6: in the 3-point run at linking length 1 the left leaf
(range start 0, size 2) is marked; its two points get equal final labels. -/
theorem fof_marked_node_soundness_witness :
    (∀ t : Trav, WfH (nsize wTree) t.head → ∀ p q, p < nsize wTree → q < nsize wTree →
      ∀ x y, SameRoot t.head x y →
        SameRoot (kd_fof_visit_edge true (nsize wTree) t (p, q)).head x y) ∧
    (kd_fof_run true wTree id (1 : ℤ) wEdges).1.head (id 0) =
      (kd_fof_run true wTree id (1 : ℤ) wEdges).1.head (id 1) :=
  fof_marked_node_soundness true wTree id wPos 1 wEdges (by decide) (by decide)
    (by decide) (by decide) (by decide) (0, 2) (by decide) 0 1 (by decide) (by decide)
    (by decide) (by decide)

/-- C7: in the default (safe) build, find-root walks from `i` to the root
`r` of its tree and returns it, rewrites the parent pointer of every node
on the walked path directly to `r`, and leaves every point not on the
walked path unchanged. -/
theorem splay_safe_mode_spec {n : ℕ} (t : Trav) (hw : WfH n t.head) (i : ℕ) :
    Reach t.head i (splay true t n i).1 ∧
    (∀ kk, kk ∈ pathList t.head n i →
      (splay true t n i).2.head kk = (splay true t n i).1) ∧
    (∀ kk, kk ∉ pathList t.head n i → (splay true t n i).2.head kk = t.head kk) := by
  have hreach : Reach t.head i (rootD t.head n i) := rootD_reach hw i
  obtain ⟨m, hmn, hm⟩ := reach_bound' hw hreach
  have hchar := compress_char n t.head i m hm hreach.1 hmn
  have heq : (splay true t n i).2.head = compress t.head n i (rootD t.head n i) := rfl
  refine ⟨by rw [splay_root]; exact hreach, ?_, ?_⟩
  · intro kk hkk
    rw [heq, hchar kk, if_pos hkk, splay_root]
  · intro kk hkk
    rw [heq, hchar kk, if_neg hkk]

/-- Witness for C7: the 2-point forest in which point 1 hangs under root 0;
splaying point 1 finds root 0, rewrites the path, and touches nothing
else. -/
theorem splay_safe_mode_spec_witness :
    Reach wTrav.head 1 (splay true wTrav 2 1).1 ∧
    (∀ kk, kk ∈ pathList wTrav.head 2 1 →
      (splay true wTrav 2 1).2.head kk = (splay true wTrav 2 1).1) ∧
    (∀ kk, kk ∉ pathList wTrav.head 2 1 →
      (splay true wTrav 2 1).2.head kk = wTrav.head kk) := by
  have hw : WfH 2 wTrav.head := by
    refine ⟨?_, ?_, ?_⟩
    · intro i hi
      interval_cases i <;> decide
    · intro i hi
      show wHead i = i
      unfold wHead
      rw [if_neg (by omega)]
    · intro i
      by_cases h : i = 1
      · subst h
        exact ⟨0, by decide, 1, by decide⟩
      · refine ⟨i, ?_, 0, rfl⟩
        show wHead i = i
        unfold wHead
        rw [if_neg h]
  exact splay_safe_mode_spec wTrav hw 1

/-- C8: the no-cycle invariant (every parent chain terminates at a
self-rooted point, pointers stay in range) holds after the prepass, after
every prefix of the edge visits, is preserved by any single splay, and
holds after finalization. -/
theorem fof_invariant_preserved {α : Type} [LinearOrderedCommRing α] (fc : Bool)
    (nd : KDNode α) (ind : ℕ → ℕ) (pos : ℕ → Pt α) (ll : α) (edges : List (ℕ × ℕ))
    (htree : TreeWF ind pos nd) (hstart : nstart nd = 0)
    (hind : ∀ k, k < nsize nd → ind k < nsize nd)
    (hinj : ∀ a, a < nsize nd → ∀ b, b < nsize nd → ind a = ind b → a = b)
    (hedge : ∀ pr ∈ edges, pr.1 < nsize nd ∧ pr.2 < nsize nd ∧
      dist2 (pos pr.1) (pos pr.2) ≤ ll * ll) :
    WfH (nsize nd) (connect (ll * ll) ind initTrav nd false).1.head ∧
    (∀ k, WfH (nsize nd) ((edges.take k).foldl
      (fun s pr => kd_fof_visit_edge fc (nsize nd) s pr)
      (connect (ll * ll) ind initTrav nd false).1).head) ∧
    (∀ t : Trav, WfH (nsize nd) t.head → ∀ i,
      WfH (nsize nd) (splay fc t (nsize nd) i).2.head) ∧
    WfH (nsize nd) (kd_fof_run fc nd ind ll edges).1.head := by
  obtain ⟨hwf, _, _, _, _, _, _, hcw, hpk⟩ :=
    kd_fof_run_spec fc nd ind pos ll edges htree hstart hind hinj hedge
  exact ⟨hcw, hpk, fun t hw i => splay_wfH fc t hw i, hwf⟩

/-- Witness for C8 at the concrete 3-point run. -/
theorem fof_invariant_preserved_witness :
    WfH (nsize wTree) (connect ((1 : ℤ) * 1) id initTrav wTree false).1.head ∧
    (∀ k, WfH (nsize wTree) ((wEdges.take k).foldl
      (fun s pr => kd_fof_visit_edge true (nsize wTree) s pr)
      (connect ((1 : ℤ) * 1) id initTrav wTree false).1).head) ∧
    (∀ t : Trav, WfH (nsize wTree) t.head → ∀ i,
      WfH (nsize wTree) (splay true t (nsize wTree) i).2.head) ∧
    WfH (nsize wTree) (kd_fof_run true wTree id (1 : ℤ) wEdges).1.head :=
  fof_invariant_preserved true wTree id wPos 1 wEdges (by decide) (by decide)
    (by decide) (by decide) (by decide)

/-- C9: for every input and every delivered pair sequence, the KD_FOF_UNSAFE
build (which relinks only the query point during find-root) produces
exactly the same final partition into components as the default
full-compression build. -/
theorem unsafe_mode_same_partition {α : Type} [LinearOrderedCommRing α] (nd : KDNode α)
    (ind : ℕ → ℕ) (pos : ℕ → Pt α) (ll : α) (edges : List (ℕ × ℕ))
    (htree : TreeWF ind pos nd) (hstart : nstart nd = 0)
    (hind : ∀ k, k < nsize nd → ind k < nsize nd)
    (hinj : ∀ a, a < nsize nd → ∀ b, b < nsize nd → ind a = ind b → a = b)
    (hedge : ∀ pr ∈ edges, pr.1 < nsize nd ∧ pr.2 < nsize nd) (i j : ℕ) :
    ((kd_fof_run true nd ind ll edges).1.head i =
        (kd_fof_run true nd ind ll edges).1.head j) ↔
      ((kd_fof_run false nd ind ll edges).1.head i =
        (kd_fof_run false nd ind ll edges).1.head j) := by
  have hbisim := kd_fof_run_bisim nd ind pos ll edges htree hstart hind hinj hedge
  rw [hbisim i, hbisim j]

/-- Witness for C9 at the concrete 3-point run, comparing the labels of
points 0 and 2. -/
theorem unsafe_mode_same_partition_witness :
    ((kd_fof_run true wTree id (1 : ℤ) wEdges).1.head 0 =
        (kd_fof_run true wTree id (1 : ℤ) wEdges).1.head 2) ↔
      ((kd_fof_run false wTree id (1 : ℤ) wEdges).1.head 0 =
        (kd_fof_run false wTree id (1 : ℤ) wEdges).1.head 2) :=
  unsafe_mode_same_partition wTree id wPos 1 wEdges (by decide) (by decide) (by decide)
    (by decide) (by decide) 0 2

/-- C10: kd_fof returns the integer 0 for every input on which it
completes; the return value is the constant 0 of the single return
statement and never signals an error. -/
theorem kd_fof_returns_zero {α : Type} [LinearOrderedCommRing α] (fc : Bool)
    (nd : KDNode α) (ind : ℕ → ℕ) (ll : α) (edges : List (ℕ × ℕ)) :
    (kd_fof fc nd ind ll edges).2 = 0 := rfl

end KDFof
